import Mathlib

/-!
Verification of the `jexel` math module (`src/math.ts`).

The TypeScript `Matrix` class stores a dimension descriptor `dim`
(a list of JavaScript numbers, validated at construction to be positive
integers) and a flat row-major buffer `data` of JavaScript numbers.
We embed JavaScript numbers as rationals (`ℚ`): all operations the
claims touch are exact on the rationals the program manipulates.
Validated dimensions are stored as naturals, mirroring the fact that
the constructor only lets positive integral dimensions through.

Fallible operations return `Except Err`, where `Err` records which of
the three error kinds (`ValueError`, `RangeError`, `TypeError`) the
source raises.  In-place mutating methods are embedded as functions
returning `Option Err × Matrix`: the second component is the state of
the receiver after the call, even when an error was raised, so that
"receiver unchanged on failure" is expressible.
-/

deriving instance DecidableEq for Except

namespace Jexel

/-- Error kinds raised by the source: `ValueError` (from `src/index.ts`),
and the JavaScript built-in `RangeError` and `TypeError`. -/
inductive Err where
  | valueError : Err
  | rangeError : Err
  | typeError : Err
deriving DecidableEq, Repr

/-- JavaScript `Math.trunc`, as used implicitly by the `%` operator:
rounding toward zero. -/
def jsTrunc (q : ℚ) : ℤ :=
  if q < 0 then -(Int.floor (-q)) else Int.floor q

/-- Exact rational division, written on numerator/denominator data so that
it evaluates inside the kernel; `ratDiv a b = a / b` (proved below). -/
def ratDiv (a b : ℚ) : ℚ :=
  Rat.divInt (a.num * b.den) (a.den * b.num)

/-- The JavaScript `%` operator on numbers: `a % b = a - b * trunc(a / b)`. -/
def jsRem (a b : ℚ) : ℚ :=
  a - b * (jsTrunc (ratDiv a b))

/-- `mod` from `src/math.ts`: `((a % b) + b) % b` (unsigned modulus).
The determinant only calls it with integer arguments, embedded here on `ℤ`
where JavaScript `%` is truncated remainder `Int.tmod`. -/
def umod (a b : ℤ) : ℤ :=
  (a.tmod b + b).tmod b

/-- The `Matrix` class: a dimension descriptor and a flat row-major buffer.
Dimensions are stored as naturals because the constructor validates them
to be positive integers. -/
structure Matrix where
  dim : List ℕ
  data : List ℚ
deriving DecidableEq, Repr

/-- Validation loop of the `Matrix` constructor over the raw `dim` argument:
each entry must be `> 0` (else `ValueError`) and integral (else `ValueError`);
validated entries are returned as naturals. -/
def parseDims : List ℚ → Except Err (List ℕ)
  | [] => .ok []
  | d :: rest =>
    if d ≤ 0 then .error .valueError
    else if ¬ d.isInt then .error .valueError
    else
      match parseDims rest with
      | .error e => .error e
      | .ok ds => .ok (d.num.toNat :: ds)

/-- The `Matrix` constructor `constructor(dim, data?)`: rejects an empty
`dim`, non-positive or non-integral dimensions, and a provided `data`
whose length differs from the product of the dimensions.  A missing
`data` defaults to a zero-filled buffer. -/
def Matrix.make (dim : List ℚ) (data? : Option (List ℚ)) : Except Err Matrix :=
  if dim.length = 0 then .error .valueError
  else
    match parseDims dim with
    | .error e => .error e
    | .ok ds =>
      let length := ds.prod
      let data := data?.getD (List.replicate length 0)
      if data.length = length then .ok ⟨ds, data⟩ else .error .valueError

/-- `copy()`: `new Matrix(this.dim, this.data)`. -/
def Matrix.copy (m : Matrix) : Except Err Matrix :=
  Matrix.make (m.dim.map (fun d : ℕ => (d : ℚ))) (some m.data)

/-- `reshape(dim)`: `new Matrix(dim, this.data)`. -/
def Matrix.reshape (m : Matrix) (dim : List ℚ) : Except Err Matrix :=
  Matrix.make dim (some m.data)

/-- `is2D`: whether the dimension descriptor has length 2. -/
def Matrix.is2D (m : Matrix) : Prop := m.dim.length = 2

instance (m : Matrix) : Decidable m.is2D := by unfold Matrix.is2D; infer_instance

/-- `isVector`: 2D with second axis of size 1. -/
def Matrix.isVector (m : Matrix) : Prop := m.dim.length = 2 ∧ m.dim.getD 1 0 = 1

instance (m : Matrix) : Decidable m.isVector := by unfold Matrix.isVector; infer_instance

/-- Loop body of `getIndex`: for each axis, the index must be integral
(`ValueError`), at least `-axis` and below `axis` (`RangeError`); the flat
offset accumulates as `dataI = dataI * axis + index + axis * (index < 0)`.
The final catch-all branch is unreachable: `getIndex` checks that the two
lists have equal length before calling this loop. -/
def getIndexAux : List ℕ → List ℚ → ℤ → Except Err ℤ
  | [], [], acc => .ok acc
  | axis :: dims, index :: indices, acc =>
    if ¬ index.isInt then .error .valueError
    else if index < -(axis : ℚ) then .error .rangeError
    else if (axis : ℚ) ≤ index then .error .rangeError
    else getIndexAux dims indices (acc * axis + index.num + (if index < 0 then (axis : ℤ) else 0))
  | _, _, _ => .error .valueError

/-- `getIndex(...indices)`: checks the arity against `dim.length`
(`ValueError`), then folds the mixed-radix accumulation. -/
def Matrix.getIndex (m : Matrix) (indices : List ℚ) : Except Err ℤ :=
  if indices.length ≠ m.dim.length then .error .valueError
  else getIndexAux m.dim indices 0

/-- Loop body of `getIndices`: `length /= axis; push(floor(index / length));
index %= length`, with JavaScript number semantics embedded on `ℚ`. -/
def getIndicesAux : List ℕ → ℚ → ℚ → List ℤ
  | [], _, _ => []
  | axis :: dims, len, index =>
    let len' := ratDiv len ((axis : ℕ) : ℚ)
    Int.floor (ratDiv index len') :: getIndicesAux dims len' (jsRem index len')

/-- `getIndices(index)`: rejects offsets outside `[0, data.length)`
(`RangeError`) and non-integral offsets (`ValueError`), then unfolds the
flat offset most-significant axis first. -/
def Matrix.getIndices (m : Matrix) (index : ℚ) : Except Err (List ℤ) :=
  if index < 0 ∨ (m.data.length : ℚ) ≤ index then .error .rangeError
  else if ¬ index.isInt then .error .valueError
  else .ok (getIndicesAux m.dim (m.data.length : ℚ) index)

/-- `get(...indices)`: `this.data[this.getIndex(...indices)]`.  A JavaScript
read at a valid offset of a length-correct buffer always hits; `getD 0`
is the total embedding of that read. -/
def Matrix.get (m : Matrix) (indices : List ℚ) : Except Err ℚ :=
  match m.getIndex indices with
  | .error e => .error e
  | .ok f => .ok (m.data.getD f.toNat 0)

/-- Total read helper for the many places the source calls `this.get(...)`
with indices it has already established to be in range. -/
def Matrix.getTot (m : Matrix) (indices : List ℚ) : ℚ :=
  match m.get indices with
  | .ok v => v
  | .error _ => 0

/-- The number of iterations of a JavaScript loop
`for (let y = 0; y < s; y++)` with a numeric bound `s`. -/
def loopCount (s : ℚ) : ℕ := (Int.ceil s).toNat

/-- Buffer built by the nested loops of `identity`
(`for y < size: for x < size: push(+(y === x))`), linearized: the element
pushed at position `k` has `y = k / size` and `x = k % size`. -/
def identityData (s : ℕ) : List ℚ :=
  (List.range (s * s)).map (fun k => if k / s = k % s then 1 else 0)

/-- `Matrix.identity(size)`: builds the `+(y === x)` buffer and hands it to
the constructor as a `[size, size]` matrix. -/
def Matrix.identity (size : ℚ) : Except Err Matrix :=
  Matrix.make [size, size] (some (identityData (loopCount size)))

/-- Buffer built by the nested loops of `transpose` over a `[r, c]` matrix
(`for x < c: for y < r: push(get(y, x))`), linearized: the element pushed
at position `k` has `x = k / r` and `y = k % r`; `get(y, x)` reads the flat
offset `y * c + x`. -/
def transposeData (r c : ℕ) (d : List ℚ) : List ℚ :=
  (List.range (c * r)).map (fun k => d.getD ((k % r) * c + k / r) 0)

/-- `transpose()` (in place): requires 2D (`TypeError`), then rebuilds the
buffer with the axes swapped and copies it back element by element.  The
dimension descriptor is left untouched by the source.  The first component
reports a raised error; the second is the state of the receiver after the call. -/
def Matrix.transposeBang (m : Matrix) : Option Err × Matrix :=
  if m.dim.length ≠ 2 then (some .typeError, m)
  else
    let r := m.dim.getD 0 0
    let c := m.dim.getD 1 0
    let newData := transposeData r c m.data
    -- `for i < data.length: data[i] = newData[i]`
    (none, ⟨m.dim, (List.range m.data.length).map (fun i => newData.getD i 0)⟩)

/-- `toTransposed()`: `this.copy().transpose()`. -/
def Matrix.toTransposed (m : Matrix) : Except Err Matrix :=
  match m.copy with
  | .error e => .error e
  | .ok c =>
    match c.transposeBang with
    | (some e, _) => .error e
    | (none, t) => .ok t

/-- Read of `this.get(i, j)` on a 2D matrix with both indices already in
range: the flat offset is `i * dim[1] + j`. -/
def Matrix.at2 (m : Matrix) (i j : ℕ) : ℚ :=
  m.data.getD (i * m.dim.getD 1 0 + j) 0

/-- The `size ≥ 3` branch of `det()`: for each starting column, the product
along the forward wrap-around diagonal `M[i, (col+i) mod size]` minus the
product along the backward diagonal `M[i, (col-i) mod size]`, summed. -/
def detSum (m : Matrix) (size : ℕ) : ℚ :=
  ((List.range size).map (fun col : ℕ =>
    (((List.range size).map
        (fun i : ℕ => m.at2 i ((umod (((col : ℕ) : ℤ) + ((i : ℕ) : ℤ)) size).toNat))).prod)
    - (((List.range size).map
        (fun i : ℕ => m.at2 i ((umod (((col : ℕ) : ℤ) - ((i : ℕ) : ℤ)) size).toNat))).prod))).sum

/-- `det()`: requires 2D then square (`TypeError`); size-1 and size-2 read
the buffer directly; size ≥ 3 uses the wrap-around diagonal scheme. -/
def Matrix.det (m : Matrix) : Except Err ℚ :=
  if m.dim.length ≠ 2 then .error .typeError
  else if m.dim.getD 0 0 ≠ m.dim.getD 1 0 then .error .typeError
  else
    let size := m.dim.getD 0 0
    if size = 1 then .ok (m.data.getD 0 0)
    else if size = 2 then
      .ok (m.data.getD 0 0 * m.data.getD 3 0 - m.data.getD 1 0 * m.data.getD 2 0)
    else .ok (detSum m size)

/-- A range argument to `slice`: a single number, a `[start, stop]` pair, or
a `[start, stop, step]` triple. -/
inductive SliceArg where
  | single : ℚ → SliceArg
  | pair : ℚ → ℚ → SliceArg
  | triple : ℚ → ℚ → ℚ → SliceArg
deriving DecidableEq, Repr

/-- A range argument after the per-axis validation of `slice`: either the raw
single index (the source leaves `ranges[i]` as the number), or the
normalized `[start, stop, step]` written back into `ranges[i]`. -/
inductive Resolved where
  | idx : ℚ → Resolved
  | run : ℤ → ℤ → ℤ → Resolved
deriving DecidableEq, Repr

/-- Validation of a `[start, stop]` or `[start, stop, step]` range against
an axis, in source order: start must be integral (`ValueError`), at least
`-axis` and below `axis` (`RangeError`); stop must be integral, at least
`-axis` and at most `axis` (`RangeError`); negative bounds are shifted by
`axis`; a missing step defaults to `+1` when `stop > start`, else `-1`;
the step must be integral and non-zero and its sign consistent with the
bound ordering (`ValueError`).  Returns the pushed `newDim` entry
`floor(|start - stop| / step)` and the normalized range. -/
def resolveRange (axis : ℕ) (a b : ℚ) (st : Option ℚ) : Except Err (ℤ × Resolved) :=
  if ¬ a.isInt then .error .valueError
  else if a < -(axis : ℚ) then .error .rangeError
  else if (axis : ℚ) ≤ a then .error .rangeError
  else
    let start : ℤ := a.num + (if a < 0 then (axis : ℤ) else 0)
    if ¬ b.isInt then .error .valueError
    else if b < -(axis : ℚ) then .error .rangeError
    else if (axis : ℚ) < b then .error .rangeError
    else
      let stop : ℤ := b.num + (if b < 0 then (axis : ℤ) else 0)
      let stepQ : ℚ := st.getD (if start < stop then 1 else -1)
      if ¬ stepQ.isInt then .error .valueError
      else if stepQ = 0 then .error .valueError
      else
        let step : ℤ := stepQ.num
        if start < stop ∧ step < 0 then .error .valueError
        else if stop < start ∧ 0 < step then .error .valueError
        else .ok (Int.floor (ratDiv (|(((start : ℤ) : ℚ)) - ((stop : ℤ) : ℚ)|) ((step : ℤ) : ℚ)), .run start stop step)

/-- Per-axis validation of one `slice` argument.  A single number is
checked to lie in `[0, axis)` (`RangeError`) before the integrality check
(`ValueError`) and contributes 1 to the result shape. -/
def resolveArg (axis : ℕ) : SliceArg → Except Err (ℤ × Resolved)
  | .single r =>
    if r < 0 ∨ (axis : ℚ) ≤ r then .error .rangeError
    else if ¬ r.isInt then .error .valueError
    else .ok (1, .idx r)
  | .pair a b => resolveRange axis a b none
  | .triple a b c => resolveRange axis a b (some c)

/-- The whole validation loop of `slice`, axis by axis, first error wins.
The final catch-all is unreachable: the argument list is padded to the
length of `dim` before the loop. -/
def resolveAll : List ℕ → List SliceArg → Except Err (List (ℤ × Resolved))
  | [], [] => .ok []
  | axis :: dims, arg :: args =>
    match resolveArg axis arg with
    | .error e => .error e
    | .ok r =>
      match resolveAll dims args with
      | .error e => .error e
      | .ok rest => .ok (r :: rest)
  | _, _ => .error .valueError

/-- Loop body for the upward loop of `dfs`, structurally recursive on a fuel
bounding the remaining iteration count (each iteration raises `index` by
`step ≥ 1`, so `(stop - start).toNat` iterations suffice). -/
def upIndicesF : ℕ → ℤ → ℤ → ℤ → List ℤ
  | 0, _, _, _ => []
  | fuel + 1, start, stop, step =>
    if start < stop ∧ 0 < step then start :: upIndicesF fuel (start + step) stop step
    else []

/-- The indices visited by the upward loop of `dfs`
`for (index = start; index < stop; index += step)`.  The `0 < step` guard
makes the definition total; `slice` only reaches the loop with a step
whose sign is consistent with the bound ordering. -/
def upIndices (start stop step : ℤ) : List ℤ :=
  upIndicesF (stop - start).toNat start stop step

/-- Loop body for the downward loop of `dfs` (negative step), fueled like
`upIndicesF`. -/
def downIndicesF : ℕ → ℤ → ℤ → ℤ → List ℤ
  | 0, _, _, _ => []
  | fuel + 1, start, stop, step =>
    if stop < start ∧ step < 0 then start :: downIndicesF fuel (start + step) stop step
    else []

/-- The indices visited by the downward loop of `dfs`
`for (index = start; index > stop; index += step)`. -/
def downIndices (start stop step : ℤ) : List ℤ :=
  downIndicesF (start - stop).toNat start stop step

/-- The indices `dfs` visits along one axis. -/
def axisIndices : Resolved → List ℚ
  | .idx r => [r]
  | .run start stop step =>
    if start < stop then (upIndices start stop step).map (fun z : ℤ => (z : ℚ))
    else (downIndices start stop step).map (fun z : ℤ => (z : ℚ))

/-- The multi-indices `dfs` visits, outermost axis first. -/
def cartesian : List (List ℚ) → List (List ℚ)
  | [] => [[]]
  | axis :: rest => axis.flatMap (fun i => (cartesian rest).map (fun t => i :: t))

/-- `slice(...ranges)`: rejects more ranges than axes (`ValueError`), pads
the missing trailing ranges with `[0, dim[j]]`, validates each axis,
enumerates the selected multi-indices in row-major order reading each
element with `get`, and hands shape and buffer to the constructor. -/
def Matrix.slice (m : Matrix) (ranges : List SliceArg) : Except Err Matrix :=
  if m.dim.length < ranges.length then .error .valueError
  else
    let padded := ranges ++ (m.dim.drop ranges.length).map (fun d : ℕ => SliceArg.pair 0 (d : ℚ))
    match resolveAll m.dim padded with
    | .error e => .error e
    | .ok rs =>
      let newDim := rs.map (fun r : ℤ × Resolved => ((r.1 : ℤ) : ℚ))
      let newData := (cartesian (rs.map (fun r => axisIndices r.2))).map (fun idxs => m.getTot idxs)
      Matrix.make newDim (some newData)

/-- `set(value, ...indices)`: `this.data[this.getIndex(...indices)] = value`.
Validation (inside `getIndex`) happens before the write. -/
def Matrix.setBang (m : Matrix) (value : ℚ) (indices : List ℚ) : Option Err × Matrix :=
  match m.getIndex indices with
  | .error e => (some e, m)
  | .ok f => (none, ⟨m.dim, m.data.set f.toNat value⟩)

/-- `fill(value)`: `this.data.fill(value)`; never raises. -/
def Matrix.fillBang (m : Matrix) (value : ℚ) : Option Err × Matrix :=
  (none, ⟨m.dim, List.replicate m.data.length value⟩)

/-- `withAdd(mat)`: checks equal dimensionality, then equal per-axis sizes
(`TypeError`), then adds `mat`'s buffer into the receiver's element by
element (`for i < this.data.length: data[i] += mat.data[i]`). -/
def Matrix.withAddBang (m mat : Matrix) : Option Err × Matrix :=
  if m.dim.length ≠ mat.dim.length then (some .typeError, m)
  else if m.dim ≠ mat.dim then (some .typeError, m)
  else (none, ⟨m.dim, (List.range m.data.length).map
    (fun i => m.data.getD i 0 + mat.data.getD i 0)⟩)

/-- `withSub(mat)`: like `withAdd` with subtraction. -/
def Matrix.withSubBang (m mat : Matrix) : Option Err × Matrix :=
  if m.dim.length ≠ mat.dim.length then (some .typeError, m)
  else if m.dim ≠ mat.dim then (some .typeError, m)
  else (none, ⟨m.dim, (List.range m.data.length).map
    (fun i => m.data.getD i 0 - mat.data.getD i 0)⟩)

/-- `withMulScalar(a)`: `for i < data.length: data[i] *= a`; never raises. -/
def Matrix.withMulScalarBang (m : Matrix) (a : ℚ) : Option Err × Matrix :=
  (none, ⟨m.dim, m.data.map (fun v => v * a)⟩)

/-- Loop of `withMap`: element `i` is overwritten with
`callback(data[i], getIndices(i))`; a callback that throws aborts the loop
with the elements before `i` already updated.  Structurally recursive on a
fuel bounding the remaining iterations (the buffer length never changes,
so `data.length` iterations suffice). -/
def withMapAux (f : ℚ → List ℤ → Except Err ℚ) : ℕ → ℕ → Matrix → Option Err × Matrix
  | 0, _, m => (none, m)
  | fuel + 1, i, m =>
    if i < m.data.length then
      match m.getIndices (i : ℚ) with
      | .error e => (some e, m)
      | .ok idxs =>
        match f (m.data.getD i 0) idxs with
        | .error e => (some e, m)
        | .ok v => withMapAux f fuel (i + 1) ⟨m.dim, m.data.set i v⟩
    else (none, m)

/-- `withMap(callback)` (in place).  The callback is embedded as a fallible
function to model a JavaScript callback that may throw. -/
def Matrix.withMapBang (m : Matrix) (f : ℚ → List ℤ → Except Err ℚ) : Option Err × Matrix :=
  withMapAux f m.data.length 0 m

/-- `withAddScalar(a)`: `withMap((value) => value + a)`. -/
def Matrix.withAddScalarBang (m : Matrix) (a : ℚ) : Option Err × Matrix :=
  m.withMapBang (fun v _ => .ok (v + a))

/-- `withSubScalar(a)`: `withMap((value) => value - a)`. -/
def Matrix.withSubScalarBang (m : Matrix) (a : ℚ) : Option Err × Matrix :=
  m.withMapBang (fun v _ => .ok (v - a))

/-- `mulScalar(a)`: pure counterpart, `map((value) => value * a)` (the
`map` loop never throws for a total callback). -/
def Matrix.mulScalar (m : Matrix) (a : ℚ) : Matrix :=
  ⟨m.dim, m.data.map (fun v => v * a)⟩

/-- `Vec.toVec(size, mat)`: rejects a non-vector matrix (`ValueError`),
copies up to `min(size, mat.dim[0])` leading elements via `get(i, 0)`,
zero-pads to `size`, and builds the result through the `Vec`/`Matrix`
constructor with shape `[size, 1]`. -/
def Vec.toVec (size : ℕ) (mat : Matrix) : Except Err Matrix :=
  if ¬ mat.isVector then .error .valueError
  else
    Matrix.make [(size : ℚ), 1]
      (some ((List.range (min size (mat.dim.getD 0 0))).map
          (fun i : ℕ => mat.getTot [(i : ℚ), 0])
        ++ List.replicate (size - min size (mat.dim.getD 0 0)) 0))

/-- `magSquared`: sum of the squares of the buffer. -/
def Vec.magSquared (v : Matrix) : ℚ :=
  (v.data.map (fun x => x ^ 2)).sum

/-- `dot(mat)`: casts `mat` to the size of the receiver (`this.size = dim[0]`)
and sums `getAxis(i) * vec.getAxis(i)` over `i < size`; `getAxis` is a
direct positional read, in range throughout the loop. -/
def Vec.dot (a mat : Matrix) : Except Err ℚ :=
  match Vec.toVec (a.dim.getD 0 0) mat with
  | .error e => .error e
  | .ok v => .ok (((List.range (a.dim.getD 0 0)).map
      (fun i => a.data.getD i 0 * v.data.getD i 0)).sum)

/-- `unit()` (in place): scales by `1 / mag` unless `magSquared` is 0; the
square root (irrational in general) is an oracle parameter, which the
"never raises" facts hold for uniformly. -/
def Vec.unitBang (sqrt : ℚ → ℚ) (v : Matrix) : Option Err × Matrix :=
  if 0 < Vec.magSquared v then v.withMulScalarBang (1 / sqrt (Vec.magSquared v))
  else (none, v)

/-- `rotate(angle)` (in place): a no-op unless `size == 2`; otherwise
rewrites `x` and `y` from the rotated basis contributions.  The cosine and
sine (irrational in general) are oracle parameters. -/
def Vec.rotateBang (cosD sinD : ℚ → ℚ) (angle : ℚ) (v : Matrix) : Option Err × Matrix :=
  if v.dim.getD 0 0 ≠ 2 then (none, v)
  else
    let x := v.data.getD 0 0
    let y := v.data.getD 1 0
    let xX := x * cosD angle
    let xY := x * sinD angle
    let yX := y * cosD (angle + 90)
    let yY := y * sinD (angle + 90)
    (none, ⟨v.dim, (v.data.set 0 (xX + yX)).set 1 (xY + yY)⟩)

/-- `withProject(mat)` (in place): casts `mat` to the size of the receiver
(this can raise, before any write), then scales the receiver by
`dot(vec) / magSquared`. -/
def Vec.withProjectBang (m mat : Matrix) : Option Err × Matrix :=
  match Vec.toVec (m.dim.getD 0 0) mat with
  | .error e => (some e, m)
  | .ok vec =>
    match Vec.dot m vec with
    | .error e => (some e, m)
    | .ok s => m.withMulScalarBang (s / Vec.magSquared m)

/-! ### Specification-side definitions used by the theorems -/

/-- Raw dimension lists the constructor accepts: non-empty, positive, integral. -/
def GoodDims (dim : List ℚ) : Prop :=
  dim ≠ [] ∧ ∀ q ∈ dim, 0 < q ∧ q.isInt = true

/-- The validated dimensions as naturals. -/
def natDims (dim : List ℚ) : List ℕ := dim.map (fun q => q.num.toNat)

instance (dim : List ℚ) : Decidable (GoodDims dim) := by
  unfold GoodDims; infer_instance

/-- The invariant every constructed matrix satisfies. -/
def Matrix.Wf (m : Matrix) : Prop :=
  m.dim ≠ [] ∧ (∀ d ∈ m.dim, 1 ≤ d) ∧ m.data.length = m.dim.prod

instance (m : Matrix) : Decidable m.Wf := by
  unfold Matrix.Wf; infer_instance

/-- Mathematical mixed-radix flattening with an accumulator, the shape of
the loop of `getIndex` on already-normalized indices. -/
def flattenAcc : List ℕ → List ℕ → ℕ → ℕ
  | [], _, acc => acc
  | _, [], acc => acc
  | d :: ds, i :: is, acc => flattenAcc ds is (acc * d + i)

/-- Mixed-radix flattening of a normalized multi-index. -/
def flatten (dims idxs : List ℕ) : ℕ := flattenAcc dims idxs 0

/-- Mathematical inverse of `flatten`, the shape of the loop in `getIndices`. -/
def unflatten : List ℕ → ℕ → List ℕ
  | [], _ => []
  | _ :: ds, f => (f / ds.prod) :: unflatten ds (f % ds.prod)

/-- Normalization of a raw multi-index: negative components are shifted by
their axis length. -/
def normIdx (dims : List ℕ) (idxs : List ℚ) : List ℕ :=
  List.zipWith (fun (d : ℕ) (i : ℚ) => (i.num + if i < 0 then ((d : ℕ) : ℤ) else 0).toNat) dims idxs

/-- Validity of a raw multi-index against a shape, exactly the conditions
`getIndex` checks: integral, and in `[-dim[j], dim[j])` per axis. -/
def ValidIdx (dims : List ℕ) (idxs : List ℚ) : Prop :=
  List.Forall₂ (fun (d : ℕ) (i : ℚ) =>
    i.isInt = true ∧ -((d : ℕ) : ℚ) ≤ i ∧ i < ((d : ℕ) : ℚ)) dims idxs

/-- Normalization of a slice bound against an axis (negative bounds are
shifted by the axis length), as `slice` performs it. -/
def normLo (axis : ℕ) (a : ℚ) : ℤ :=
  a.num + (if a < 0 then ((axis : ℕ) : ℤ) else 0)

/-- The per-axis conditions of claim C2 as amended: bounds integral and in
range, the axis forward after normalization (`start < stop`), and the step
(explicit, or the `+1` default) positive and dividing `stop - start`. -/
def ForwardArg (axis : ℕ) : SliceArg → Prop
  | .single r => r.isInt = true ∧ 0 ≤ r ∧ r < ((axis : ℕ) : ℚ)
  | .pair a b => a.isInt = true ∧ -((axis : ℕ) : ℚ) ≤ a ∧ a < ((axis : ℕ) : ℚ) ∧
      b.isInt = true ∧ -((axis : ℕ) : ℚ) ≤ b ∧ b ≤ ((axis : ℕ) : ℚ) ∧
      normLo axis a < normLo axis b
  | .triple a b c => a.isInt = true ∧ -((axis : ℕ) : ℚ) ≤ a ∧ a < ((axis : ℕ) : ℚ) ∧
      b.isInt = true ∧ -((axis : ℕ) : ℚ) ≤ b ∧ b ≤ ((axis : ℕ) : ℚ) ∧
      normLo axis a < normLo axis b ∧
      c.isInt = true ∧ 0 < c.num ∧ c.num ∣ (normLo axis b - normLo axis a)

instance (axis : ℕ) (arg : SliceArg) : Decidable (ForwardArg axis arg) := by
  cases arg <;> (unfold ForwardArg; infer_instance)

/-- The `newDim` entry `slice` pushes for one validated forward axis. -/
def expectDim (axis : ℕ) : SliceArg → ℤ
  | .single _ => 1
  | .pair a b => normLo axis b - normLo axis a
  | .triple a b c => (normLo axis b - normLo axis a) / c.num

/-- The normalized range `slice` stores back for one validated forward axis. -/
def expectRes (axis : ℕ) : SliceArg → Resolved
  | .single r => .idx r
  | .pair a b => .run (normLo axis a) (normLo axis b) 1
  | .triple a b c => .run (normLo axis a) (normLo axis b) c.num

/-- The range-axis length the specification claims:
`floor(|start - stop| / |step|)` on the normalized bounds, with the
defaulted step `+1` for the pair form. -/
def specAxisLen (axis : ℕ) : SliceArg → ℤ
  | .single _ => 1
  | .pair a b =>
      Int.floor ((|((normLo axis a : ℤ) : ℚ) - ((normLo axis b : ℤ) : ℚ)|) / |(1 : ℚ)|)
  | .triple a b c =>
      Int.floor ((|((normLo axis a : ℤ) : ℚ) - ((normLo axis b : ℤ) : ℚ)|) / |((c.num : ℤ) : ℚ)|)

/-! ### Generic helper lemmas -/

section
attribute [local semireducible] Rat.add Rat.mul Rat.sub Rat.inv

theorem tmod_emod (a n : ℤ) : (a.tmod n) % n = a % n := by
  rw [Int.tmod_def, sub_eq_add_neg, ← mul_neg, Int.add_mul_emod_self_left]

theorem neg_lt_tmod (a n : ℤ) (h : 0 < n) : -n < a.tmod n := by
  rcases le_or_lt 0 a with ha | ha
  · have := Int.tmod_nonneg n ha
    omega
  · have h1 : a.tmod n = -((-a).tmod n) := by
      rw [Int.tmod_def, Int.tmod_def, Int.neg_tdiv]
      ring
    have h2 := Int.tmod_lt_of_pos (-a) h
    omega

theorem umod_eq_emod (a : ℤ) (n : ℕ) (h : 0 < (n : ℤ)) : umod a n = a % n := by
  unfold umod
  have hlt := neg_lt_tmod a n h
  rw [Int.tmod_eq_emod (by omega) (by omega)]
  have : a.tmod ↑n + ↑n = a.tmod ↑n + ↑n * 1 := by ring
  rw [this, Int.add_mul_emod_self_left, tmod_emod]

theorem umod_nonneg_lt (a : ℤ) (n : ℕ) (h : 0 < n) : 0 ≤ umod a n ∧ umod a n < n := by
  have hn : 0 < (n : ℤ) := by exact_mod_cast h
  rw [umod_eq_emod a n hn]
  exact ⟨Int.emod_nonneg a (by omega), Int.emod_lt_of_pos a hn⟩

theorem ratDiv_eq_div (a b : ℚ) : ratDiv a b = a / b := by
  unfold ratDiv
  rcases eq_or_ne b 0 with rfl | hb
  · simp [Rat.divInt_eq_div]
  · rw [Rat.divInt_eq_div]
    push_cast
    conv_rhs => rw [← Rat.num_div_den a, ← Rat.num_div_den b]
    have h1 : ((a.den : ℚ)) ≠ 0 := by exact_mod_cast a.den_nz
    have h2 : ((b.den : ℚ)) ≠ 0 := by exact_mod_cast b.den_nz
    have h3 : ((b.num : ℚ)) ≠ 0 := by exact_mod_cast Rat.num_ne_zero.mpr hb
    field_simp

theorem getD_range_map (f : ℕ → ℚ) (n k : ℕ) :
    ((List.range n).map f).getD k 0 = if k < n then f k else 0 := by
  rcases lt_or_le k n with h | h
  · rw [List.getD_eq_getElem?_getD]
    rw [List.getElem?_eq_getElem (by simpa using h)]
    simp [h]
  · rw [List.getD_eq_getElem?_getD, List.getElem?_eq_none (by simpa using h)]
    simp [Nat.not_lt.mpr h]

theorem range_map_getD (l : List ℚ) (n : ℕ) (h : l.length = n) :
    (List.range n).map (fun i => l.getD i 0) = l := by
  apply List.ext_getElem
  · simp [h]
  · intro k h1 h2
    simp only [List.getElem_map, List.getElem_range]
    rw [List.getD_eq_getElem?_getD, List.getElem?_eq_getElem h2]
    rfl

theorem sum_map_range_zero_tail (f : ℕ → ℚ) (k n : ℕ) (hk : k ≤ n)
    (h : ∀ i, k ≤ i → i < n → f i = 0) :
    ((List.range n).map f).sum = ((List.range k).map f).sum := by
  induction n with
  | zero =>
    have : k = 0 := by omega
    rw [this]
  | succ m ih =>
    rcases Nat.lt_or_ge k (m + 1) with hlt | hge
    · have hkm : k ≤ m := by omega
      rw [List.range_succ, List.map_append, List.sum_append]
      simp only [List.map_cons, List.map_nil, List.sum_cons, List.sum_nil]
      rw [h m hkm (by omega)]
      simpa using ih hkm (fun i h1 h2 => h i h1 (by omega))
    · have : k = m + 1 := by omega
      rw [this]

theorem sum_map_range_head (g : ℕ → ℚ) (n : ℕ) (hn : 0 < n)
    (h : ∀ c, 0 < c → c < n → g c = 0) :
    ((List.range n).map g).sum = g 0 := by
  rw [sum_map_range_zero_tail g 1 n hn (fun i h1 h2 => h i h1 h2)]
  show (List.map g [0]).sum = g 0
  simp

/-! ### Casts of validated numbers -/

theorem natCast_isInt (d : ℕ) : ((d : ℚ)).isInt = true := by
  simp [Rat.isInt, Rat.den_natCast]

theorem intCast_isInt (z : ℤ) : ((z : ℚ)).isInt = true := by
  simp [Rat.isInt, Rat.den_intCast]

theorem natCast_num_toNat (d : ℕ) : ((d : ℚ)).num.toNat = d := by
  rw [Rat.num_natCast]
  exact Int.toNat_natCast d

theorem isInt_num_cast {q : ℚ} (h : q.isInt = true) : ((q.num : ℚ)) = q := by
  apply Rat.coe_int_num_of_den_eq_one
  simpa [Rat.isInt] using h

/-! ### Constructor lemmas -/

theorem parseDims_ok (l : List ℚ) (h : ∀ q ∈ l, 0 < q ∧ q.isInt = true) :
    parseDims l = .ok (natDims l) := by
  induction l with
  | nil => rfl
  | cons d rest ih =>
    have hd := h d (by simp)
    unfold parseDims
    rw [if_neg (by exact not_le.mpr hd.1), if_neg (by simp [hd.2])]
    rw [ih (fun q hq => h q (by simp [hq]))]
    rfl

theorem parseDims_ok_inv {l : List ℚ} {ds : List ℕ} (h : parseDims l = .ok ds) :
    (∀ q ∈ l, 0 < q ∧ q.isInt = true) ∧ ds = natDims l := by
  induction l generalizing ds with
  | nil =>
    refine ⟨by simp, ?_⟩
    simpa [parseDims, natDims] using h.symm
  | cons d rest ih =>
    unfold parseDims at h
    by_cases h1 : d ≤ 0
    · rw [if_pos h1] at h; exact absurd h (by simp)
    rw [if_neg h1] at h
    by_cases h2 : ¬ d.isInt = true
    · rw [if_pos h2] at h; exact absurd h (by simp)
    rw [if_neg h2] at h
    rcases hr : parseDims rest with e | ds'
    · rw [hr] at h; exact absurd h (by simp)
    rw [hr] at h
    have := ih hr
    refine ⟨?_, ?_⟩
    · intro q hq
      rcases List.mem_cons.mp hq with rfl | hq'
      · exact ⟨not_le.mp h1, by simpa using h2⟩
      · exact this.1 q hq'
    · have hds : ds = d.num.toNat :: ds' := by
        simpa using h.symm
      rw [hds, this.2]
      rfl

theorem make_ok (dim : List ℚ) (data : List ℚ) (h1 : GoodDims dim)
    (h2 : data.length = (natDims dim).prod) :
    Matrix.make dim (some data) = .ok ⟨natDims dim, data⟩ := by
  unfold Matrix.make
  rw [if_neg (by simpa [List.length_eq_zero] using h1.1)]
  rw [parseDims_ok dim h1.2]
  simp [h2]

theorem parseDims_err {l : List ℚ} {e : Err} (h : parseDims l = .error e) :
    e = .valueError := by
  induction l generalizing e with
  | nil => simp [parseDims] at h
  | cons d rest ih =>
    unfold parseDims at h
    by_cases h1 : d ≤ 0
    · rw [if_pos h1] at h; simpa using h.symm
    rw [if_neg h1] at h
    by_cases h2 : ¬ d.isInt = true
    · rw [if_pos h2] at h; simpa using h.symm
    rw [if_neg h2] at h
    rcases hr : parseDims rest with e'' | ds'
    · rw [hr] at h
      have he : e'' = e := by simpa using h
      exact he ▸ ih hr
    · rw [hr] at h; simp at h

theorem make_ok_inv {dim data : List ℚ} {m : Matrix}
    (h : Matrix.make dim (some data) = .ok m) :
    GoodDims dim ∧ data.length = (natDims dim).prod ∧ m = ⟨natDims dim, data⟩ := by
  unfold Matrix.make at h
  by_cases h0 : dim.length = 0
  · rw [if_pos h0] at h; exact absurd h (by simp)
  rw [if_neg h0] at h
  rcases hp : parseDims dim with e | ds
  · rw [hp] at h; exact absurd h (by simp)
  rw [hp] at h
  dsimp only at h
  obtain ⟨hall, rfl⟩ := parseDims_ok_inv hp
  by_cases hl : data.length = (natDims dim).prod
  · rw [if_pos (by simpa using hl)] at h
    refine ⟨⟨by simpa [List.length_eq_zero] using h0, hall⟩, hl, ?_⟩
    simpa using h.symm
  · rw [if_neg (by simpa using hl)] at h
    exact absurd h (by simp)

theorem make_err {dim : List ℚ} {data? : Option (List ℚ)} {e : Err}
    (h : Matrix.make dim data? = .error e) : e = .valueError := by
  unfold Matrix.make at h
  by_cases h0 : dim.length = 0
  · rw [if_pos h0] at h
    simpa using h.symm
  rw [if_neg h0] at h
  rcases hp : parseDims dim with e' | ds
  · rw [hp] at h
    have he : e' = e := by simpa using h
    exact he ▸ parseDims_err hp
  · rw [hp] at h
    dsimp only at h
    split at h
    · simp at h
    · simpa using h.symm

theorem make_wf {dim data : List ℚ} {m : Matrix}
    (h : Matrix.make dim (some data) = .ok m) : m.Wf := by
  obtain ⟨⟨hne, hall⟩, hlen, rfl⟩ := make_ok_inv h
  refine ⟨by simpa [natDims, List.map_eq_nil_iff] using hne, ?_, hlen⟩
  intro d hd
  simp only [natDims, List.mem_map] at hd
  obtain ⟨q, hq, rfl⟩ := hd
  obtain ⟨hpos, hint⟩ := hall q hq
  have : (0 : ℚ) < (q.num : ℚ) := by rw [isInt_num_cast hint]; exact hpos
  have : 0 < q.num := by exact_mod_cast this
  omega

/-! ### Claim C9: reshape -/

/-- Claim C9: `reshape(newDim)` succeeds exactly when `newDim` is a non-empty
list of positive integers whose product equals the receiver's element
count, returning a new matrix with shape `dim'` and the receiver's flat
data in unchanged order; otherwise it raises an invalid-value error.  (The
receiver is never written: `reshape` only reads `this.data`.) -/
theorem C9_reshape (m : Matrix) (dim : List ℚ) :
    (GoodDims dim ∧ (natDims dim).prod = m.data.length →
      m.reshape dim = .ok ⟨natDims dim, m.data⟩) ∧
    (¬ (GoodDims dim ∧ (natDims dim).prod = m.data.length) →
      m.reshape dim = .error .valueError) := by
  constructor
  · rintro ⟨hg, hp⟩
    exact make_ok dim m.data hg hp.symm
  · intro hbad
    unfold Matrix.reshape
    rcases hr : Matrix.make dim (some m.data) with e | r
    · rw [make_err hr]
    · obtain ⟨hg, hl, _⟩ := make_ok_inv hr
      exact absurd ⟨hg, hl.symm⟩ hbad

/-- Witness for C9 at a concrete matrix and shape. -/
theorem C9_reshape_witness :
    ((GoodDims [3, 2] ∧ (natDims [3, 2]).prod = ([0, 1, 2, 3, 4, 5] : List ℚ).length →
      Matrix.reshape ⟨[2, 3], [0, 1, 2, 3, 4, 5]⟩ [3, 2] =
        .ok ⟨natDims [3, 2], [0, 1, 2, 3, 4, 5]⟩) ∧
    (¬ (GoodDims [3, 2] ∧ (natDims [3, 2]).prod = ([0, 1, 2, 3, 4, 5] : List ℚ).length) →
      Matrix.reshape ⟨[2, 3], [0, 1, 2, 3, 4, 5]⟩ [3, 2] = .error .valueError)) ∧
    Matrix.reshape ⟨[2, 3], [0, 1, 2, 3, 4, 5]⟩ [3, 2] = .ok ⟨[3, 2], [0, 1, 2, 3, 4, 5]⟩ :=
  ⟨C9_reshape ⟨[2, 3], [0, 1, 2, 3, 4, 5]⟩ [3, 2],
    (C9_reshape ⟨[2, 3], [0, 1, 2, 3, 4, 5]⟩ [3, 2]).1 (by decide)⟩

/-! ### Vector casting lemmas (claims C7, C8) -/

theorem isVector_dim_eq {m : Matrix} (h : m.isVector) : m.dim = [m.dim.getD 0 0, 1] := by
  obtain ⟨hl, h1⟩ := h
  obtain ⟨a, b, hab⟩ := List.length_eq_two.mp hl
  rw [hab] at h1 ⊢
  simpa using h1

theorem getIndex_vec {m : Matrix} {d0 : ℕ} (hdim : m.dim = [d0, 1]) (i : ℕ)
    (hi : i < d0) : m.getIndex [(i : ℚ), 0] = .ok (i : ℤ) := by
  unfold Matrix.getIndex
  rw [hdim]
  rw [if_neg (by simp)]
  unfold getIndexAux
  rw [if_neg (by simp [natCast_isInt])]
  rw [if_neg (by rw [not_lt]; exact le_trans (neg_nonpos.mpr (by positivity)) (by positivity))]
  rw [if_neg (by push_cast [not_le]; exact_mod_cast hi)]
  rw [if_neg (by norm_num)]
  unfold getIndexAux
  rw [if_neg (by simp [Rat.isInt])]
  rw [if_neg (by norm_num)]
  rw [if_neg (by norm_num)]
  rw [if_neg (by norm_num)]
  unfold getIndexAux
  congr 1
  push_cast
  simp

theorem getTot_vec {m : Matrix} {d0 : ℕ} (hdim : m.dim = [d0, 1]) (i : ℕ)
    (hi : i < d0) : m.getTot [(i : ℚ), 0] = m.data.getD i 0 := by
  unfold Matrix.getTot Matrix.get
  rw [getIndex_vec hdim i hi]
  simp

theorem toVec_ok (n : ℕ) (hn : 1 ≤ n) (m : Matrix) (hv : m.isVector) :
    Vec.toVec n m = .ok ⟨[n, 1],
      (List.range (min n (m.dim.getD 0 0))).map (fun i : ℕ => m.getTot [(i : ℚ), 0])
        ++ List.replicate (n - min n (m.dim.getD 0 0)) 0⟩ := by
  unfold Vec.toVec
  rw [if_neg (by simpa using hv)]
  have h1 : GoodDims [(n : ℚ), 1] := by
    refine ⟨by simp, ?_⟩
    intro q hq
    rcases List.mem_pair.mp hq with rfl | rfl
    · exact ⟨by exact_mod_cast hn, natCast_isInt n⟩
    · exact ⟨by norm_num, by norm_num [Rat.isInt]⟩
  rw [show ((1 : ℚ)) = ((1 : ℕ) : ℚ) by norm_num] at h1 ⊢
  have h2 : natDims [((n : ℕ) : ℚ), ((1 : ℕ) : ℚ)] = [n, 1] := by
    simp only [natDims, List.map_cons, List.map_nil, natCast_num_toNat]
  have := make_ok [((n : ℕ) : ℚ), ((1 : ℕ) : ℚ)]
    ((List.range (min n (m.dim.getD 0 0))).map (fun i : ℕ => m.getTot [(i : ℚ), 0])
      ++ List.replicate (n - min n (m.dim.getD 0 0)) 0) h1
    (by
      rw [h2]
      simp only [List.length_append, List.length_map, List.length_range,
        List.length_replicate, List.prod_cons, List.prod_nil]
      omega)
  rw [this, h2]

theorem toVecData_getD (n : ℕ) (m : Matrix) {d0 : ℕ} (hdim : m.dim = [d0, 1])
    (i : ℕ) :
    (((List.range (min n (m.dim.getD 0 0))).map (fun j : ℕ => m.getTot [(j : ℚ), 0])
        ++ List.replicate (n - min n (m.dim.getD 0 0)) (0 : ℚ)).getD i 0)
      = if i < min n d0 then m.data.getD i 0 else 0 := by
  have hd0 : m.dim.getD 0 0 = d0 := by rw [hdim]; rfl
  rw [hd0]
  rcases lt_or_le i (min n d0) with h | h
  · rw [List.getD_append _ _ _ _ (by simpa using h)]
    rw [getD_range_map, if_pos h, if_pos h]
    exact getTot_vec hdim i (lt_of_lt_of_le h (min_le_right n d0))
  · rw [List.getD_append_right _ _ _ _ (by simp only [List.length_map, List.length_range]; exact h)]
    rw [if_neg (not_lt.mpr h)]
    rcases lt_or_le (i - ((List.range (min n d0)).map (fun j : ℕ => m.getTot [(j : ℚ), 0])).length)
        (n - min n d0) with h2 | h2
    · rw [List.getD_eq_getElem?_getD, List.getElem?_replicate, if_pos h2]
      rfl
    · rw [List.getD_eq_getElem?_getD, List.getElem?_replicate, if_neg (not_lt.mpr h2)]
      rfl

/-- Claim C8: `toVec(N, mat)` raises an invalid-value error when `mat` is
not vector-shaped; otherwise it returns a size-`N` vector whose first
`min(N, mat.dim[0])` entries are the leading entries of `mat` and whose
remaining entries are 0; casting the 2-vector `(100, -200)` to size 4
yields `(100, -200, 0, 0)` and casting that back to size 2 restores
`(100, -200)`. -/
theorem C8_toVec :
    (∀ (n : ℕ) (m : Matrix), ¬ m.isVector → Vec.toVec n m = .error .valueError) ∧
    (∀ (n : ℕ) (m : Matrix) (d0 : ℕ), 1 ≤ n → m.dim = [d0, 1] →
      ∃ v, Vec.toVec n m = .ok v ∧ v.dim = [n, 1] ∧ v.data.length = n ∧
        ∀ i : ℕ, v.data.getD i 0 = if i < min n d0 then m.data.getD i 0 else 0) ∧
    Vec.toVec 4 ⟨[2, 1], [100, -200]⟩ = .ok ⟨[4, 1], [100, -200, 0, 0]⟩ ∧
    Vec.toVec 2 ⟨[4, 1], [100, -200, 0, 0]⟩ = .ok ⟨[2, 1], [100, -200]⟩ := by
  refine ⟨?_, ?_, by decide, by decide⟩
  · intro n m hm
    unfold Vec.toVec
    rw [if_pos (by simpa using hm)]
  · intro n m d0 hn hdim
    have hv : m.isVector := by rw [Matrix.isVector, hdim]; exact ⟨rfl, rfl⟩
    refine ⟨_, toVec_ok n hn m hv, rfl, ?_, ?_⟩
    · simp only [List.length_append, List.length_map, List.length_range,
        List.length_replicate]
      omega
    · intro i
      exact toVecData_getD n m hdim i

/-- Witness for C8: casting the 2-vector `(100, -200)` to size 3, and a
non-vector matrix rejected. -/
theorem C8_toVec_witness :
    (∃ v, Vec.toVec 3 ⟨[2, 1], [100, -200]⟩ = .ok v ∧ v.dim = [3, 1] ∧ v.data.length = 3 ∧
      ∀ i : ℕ, v.data.getD i 0 =
        if i < min 3 2 then (⟨[2, 1], [100, -200]⟩ : Matrix).data.getD i 0 else 0) ∧
    Vec.toVec 5 ⟨[2, 2], [1, 2, 3, 4]⟩ = .error .valueError :=
  ⟨C8_toVec.2.1 3 ⟨[2, 1], [100, -200]⟩ 2 (by norm_num) rfl,
    C8_toVec.1 5 ⟨[2, 2], [1, 2, 3, 4]⟩ (by decide)⟩

theorem dot_ok (na nb : ℕ) (a b : Matrix) (hna : 1 ≤ na)
    (hda : a.dim = [na, 1]) (hdb : b.dim = [nb, 1]) :
    Vec.dot a b =
      .ok (((List.range (min na nb)).map
        (fun i : ℕ => a.data.getD i 0 * b.data.getD i 0)).sum) := by
  have hda0 : a.dim.getD 0 0 = na := by rw [hda]; rfl
  have hv : b.isVector := by rw [Matrix.isVector, hdb]; exact ⟨rfl, rfl⟩
  unfold Vec.dot
  rw [hda0, toVec_ok na hna b hv]
  have hchar := toVecData_getD na b hdb
  simp only
  congr 1
  rw [sum_map_range_zero_tail _ (min na nb) na (min_le_left na nb)
    (by
      intro i h1 h2
      rw [hchar i, if_neg (not_lt.mpr h1), mul_zero])]
  apply congrArg
  apply List.map_congr_left
  intro i hi
  rw [List.mem_range] at hi
  rw [hchar i, if_pos hi]

/-- Claim C7: for vectors `a` of size `N ∈ {2,3,4}` and `b` of size
`M ∈ {2,3,4}`, `a.dot(b) = b.dot(a)`: the smaller operand is
zero-extended and the larger truncated to the receiver's size before the
elementwise-product sum, so the two directions agree. -/
theorem C7_dot_comm (na nb : ℕ) (a b : Matrix)
    (hN : na = 2 ∨ na = 3 ∨ na = 4) (hM : nb = 2 ∨ nb = 3 ∨ nb = 4)
    (hda : a.dim = [na, 1]) (hdb : b.dim = [nb, 1]) :
    Vec.dot a b = Vec.dot b a ∧ ∃ s, Vec.dot a b = .ok s := by
  have hna : 1 ≤ na := by rcases hN with rfl | rfl | rfl <;> norm_num
  have hnb : 1 ≤ nb := by rcases hM with rfl | rfl | rfl <;> norm_num
  rw [dot_ok na nb a b hna hda hdb, dot_ok nb na b a hnb hdb hda]
  refine ⟨?_, _, rfl⟩
  rw [min_comm nb na]
  apply congrArg
  apply congrArg
  apply List.map_congr_left
  intro i _
  rw [mul_comm]

/-- Witness for C7: a size-2 and a size-3 vector. -/
theorem C7_dot_comm_witness :
    Vec.dot ⟨[2, 1], [1, 2]⟩ ⟨[3, 1], [5, 7, 9]⟩ =
        Vec.dot ⟨[3, 1], [5, 7, 9]⟩ ⟨[2, 1], [1, 2]⟩ ∧
      ∃ s, Vec.dot ⟨[2, 1], [1, 2]⟩ ⟨[3, 1], [5, 7, 9]⟩ = .ok s :=
  C7_dot_comm 2 3 ⟨[2, 1], [1, 2]⟩ ⟨[3, 1], [5, 7, 9]⟩ (Or.inl rfl)
    (Or.inr (Or.inl rfl)) rfl rfl

/-! ### Mixed-radix index mapping (claim C3) -/

theorem flattenAcc_acc (dims idxs : List ℕ) (acc : ℕ)
    (h : idxs.length = dims.length) :
    flattenAcc dims idxs acc = acc * dims.prod + flatten dims idxs := by
  induction dims generalizing idxs acc with
  | nil =>
    cases idxs with
    | nil => simp [flattenAcc, flatten]
    | cons i is => simp at h
  | cons d ds ih =>
    cases idxs with
    | nil => simp at h
    | cons i is =>
      simp only [List.length_cons, Nat.succ_inj] at h
      show flattenAcc ds is (acc * d + i) = acc * (d :: ds).prod + flatten (d :: ds) (i :: is)
      rw [ih is (acc * d + i) h]
      rw [show flatten (d :: ds) (i :: is) = flattenAcc ds is (0 * d + i) from rfl]
      rw [ih is (0 * d + i) h]
      simp only [List.prod_cons]
      ring

theorem flatten_cons (d : ℕ) (ds : List ℕ) (i : ℕ) (is : List ℕ)
    (h : is.length = ds.length) :
    flatten (d :: ds) (i :: is) = i * ds.prod + flatten ds is := by
  show flattenAcc ds is (0 * d + i) = _
  rw [flattenAcc_acc ds is _ h]
  ring_nf

theorem flatten_lt (dims idxs : List ℕ) (h : List.Forall₂ (fun d i => i < d) dims idxs) :
    flatten dims idxs < dims.prod := by
  induction h with
  | nil => simp [flatten, flattenAcc]
  | @cons d i ds is hdi htail ih =>
    have hlen : is.length = ds.length := htail.length_eq.symm
    rw [flatten_cons d ds i is hlen, List.prod_cons]
    have hP : 0 < ds.prod := by
      rcases Nat.eq_zero_or_pos ds.prod with h0 | h0
      · omega
      · exact h0
    calc i * ds.prod + flatten ds is < i * ds.prod + ds.prod := by omega
    _ = (i + 1) * ds.prod := by ring
    _ ≤ d * ds.prod := Nat.mul_le_mul_right _ (by omega)

theorem forall₂_lt_pos {ds is : List ℕ} (h : List.Forall₂ (fun d i => i < d) ds is) :
    ∀ d ∈ ds, 0 < d := by
  induction h with
  | nil => simp
  | @cons d i ds' is' hdi htail ih =>
    intro x hx
    rcases List.mem_cons.mp hx with rfl | hx'
    · omega
    · exact ih x hx'

theorem unflatten_flatten (dims idxs : List ℕ)
    (h : List.Forall₂ (fun d i => i < d) dims idxs) :
    unflatten dims (flatten dims idxs) = idxs := by
  induction h with
  | nil => rfl
  | @cons d i ds is hdi htail ih =>
    have hlen : is.length = ds.length := htail.length_eq.symm
    have hP : 0 < ds.prod := List.prod_pos (forall₂_lt_pos htail)
    rw [flatten_cons d ds i is hlen]
    show (i * ds.prod + flatten ds is) / ds.prod :: _ = _
    have hflt : flatten ds is < ds.prod := flatten_lt ds is htail
    have hdiv : (i * ds.prod + flatten ds is) / ds.prod = i := by
      rw [add_comm, mul_comm, Nat.add_mul_div_left _ _ hP, Nat.div_eq_of_lt hflt, zero_add]
    have hmod : (i * ds.prod + flatten ds is) % ds.prod = flatten ds is := by
      rw [add_comm, mul_comm, Nat.add_mul_mod_self_left, Nat.mod_eq_of_lt hflt]
    rw [hdiv, hmod, ih]

theorem getIndexAux_ok (dims : List ℕ) (idxs : List ℚ) (h : ValidIdx dims idxs)
    (acc : ℕ) :
    getIndexAux dims idxs (acc : ℤ) = .ok ((flattenAcc dims (normIdx dims idxs) acc : ℕ) : ℤ) := by
  induction h generalizing acc with
  | nil => rfl
  | @cons d i ds is hdi htail ih =>
    obtain ⟨hint, hlo, hhi⟩ := hdi
    have hnum : ((i.num : ℚ)) = i := isInt_num_cast hint
    have hlo' : -(d : ℤ) ≤ i.num := by
      have : -((d : ℕ) : ℚ) ≤ ((i.num : ℚ)) := by rw [hnum]; exact hlo
      exact_mod_cast this
    have hhi' : i.num < (d : ℤ) := by
      have : ((i.num : ℚ)) < ((d : ℕ) : ℚ) := by rw [hnum]; exact hhi
      exact_mod_cast this
    have hneg : i < 0 ↔ i.num < 0 := by
      constructor
      · intro hx
        have : ((i.num : ℚ)) < 0 := by rw [hnum]; exact hx
        exact_mod_cast this
      · intro hx
        have : ((i.num : ℚ)) < 0 := by exact_mod_cast hx
        rw [hnum] at this; exact this
    unfold getIndexAux
    rw [if_neg (by simp [hint]), if_neg (not_lt.mpr hlo), if_neg (not_le.mpr hhi)]
    show getIndexAux ds is _ = .ok ((flattenAcc ds (normIdx ds is)
      (acc * d + (i.num + if i < 0 then (d : ℤ) else 0).toNat) : ℕ) : ℤ)
    have harg : (acc : ℤ) * d + i.num + (if i < 0 then (d : ℤ) else 0)
        = ((acc * d + (i.num + if i < 0 then (d : ℤ) else 0).toNat : ℕ) : ℤ) := by
      by_cases hx : i < 0
      · rw [if_pos hx]
        have hx' : i.num < 0 := hneg.mp hx
        push_cast
        rw [Int.toNat_of_nonneg (by omega)]
        ring
      · rw [if_neg hx]
        have hx' : ¬ i.num < 0 := fun hc => hx (hneg.mpr hc)
        push_cast
        rw [Int.toNat_of_nonneg (by omega)]
        ring
    rw [harg]
    exact ih _

theorem getIndex_ok (m : Matrix) (idxs : List ℚ) (h : ValidIdx m.dim idxs) :
    m.getIndex idxs = .ok ((flatten m.dim (normIdx m.dim idxs) : ℕ) : ℤ) := by
  unfold Matrix.getIndex
  rw [if_neg (by push_neg; exact h.length_eq.symm)]
  exact_mod_cast getIndexAux_ok m.dim idxs h 0

theorem normIdx_lt (dims : List ℕ) (idxs : List ℚ) (h : ValidIdx dims idxs) :
    List.Forall₂ (fun d n => n < d) dims (normIdx dims idxs) := by
  induction h with
  | nil => exact List.Forall₂.nil
  | @cons d i ds is hdi htail ih =>
    obtain ⟨hint, hlo, hhi⟩ := hdi
    have hnum : ((i.num : ℚ)) = i := isInt_num_cast hint
    have hlo' : -(d : ℤ) ≤ i.num := by
      have : -((d : ℕ) : ℚ) ≤ ((i.num : ℚ)) := by rw [hnum]; exact hlo
      exact_mod_cast this
    have hhi' : i.num < (d : ℤ) := by
      have : ((i.num : ℚ)) < ((d : ℕ) : ℚ) := by rw [hnum]; exact hhi
      exact_mod_cast this
    show List.Forall₂ (fun d n => n < d) (d :: ds)
      ((i.num + if i < 0 then ((d : ℕ) : ℤ) else 0).toNat :: normIdx ds is)
    refine List.Forall₂.cons ?_ ih
    by_cases hx : i < 0
    · have hx' : i.num < 0 := by
        have : ((i.num : ℚ)) < 0 := by rw [hnum]; exact hx
        exact_mod_cast this
      rw [if_pos hx]
      omega
    · have hx' : ¬ i.num < 0 := by
        intro hc
        apply hx
        have : ((i.num : ℚ)) < 0 := by exact_mod_cast hc
        rw [hnum] at this; exact this
      rw [if_neg hx]
      omega

theorem getIndicesAux_ok (dims : List ℕ) (f : ℕ) (hpos : ∀ d ∈ dims, 0 < d)
    (hf : f < dims.prod) :
    getIndicesAux dims ((dims.prod : ℕ) : ℚ) (f : ℚ)
      = (unflatten dims f).map (fun n : ℕ => (n : ℤ)) := by
  induction dims generalizing f with
  | nil => rfl
  | cons d ds ih =>
    have hd : 0 < d := hpos d (by simp)
    have hP : 0 < ds.prod := List.prod_pos (fun x hx => hpos x (by simp [hx]))
    have hlen' : (((d :: ds).prod : ℕ) : ℚ) / ((d : ℕ) : ℚ) = ((ds.prod : ℕ) : ℚ) := by
      rw [List.prod_cons, Nat.cast_mul, mul_comm, mul_div_assoc,
        div_self (by exact_mod_cast hd.ne'), mul_one]
    have hfloor : Int.floor ((f : ℚ) / ((ds.prod : ℕ) : ℚ)) = ((f / ds.prod : ℕ) : ℤ) := by
      exact_mod_cast Rat.floor_natCast_div_natCast f ds.prod
    have hrem : jsRem (f : ℚ) ((ds.prod : ℕ) : ℚ) = ((f % ds.prod : ℕ) : ℚ) := by
      unfold jsRem jsTrunc
      rw [ratDiv_eq_div]
      rw [if_neg (not_lt.mpr (by positivity))]
      rw [hfloor]
      have hmain : ∀ P : ℕ, ((P : ℕ) : ℚ) * (((f / P : ℕ) : ℤ) : ℚ)
          + ((f % P : ℕ) : ℚ) = (f : ℚ) := fun P => by
        rw [show (((f / P : ℕ) : ℤ) : ℚ) = ((f / P : ℕ) : ℚ) from by norm_cast]
        rw [← Nat.cast_mul, ← Nat.cast_add]
        exact_mod_cast Nat.div_add_mod f P
      linarith [hmain ds.prod]
    show Int.floor (ratDiv (f : ℚ) (ratDiv (((d :: ds).prod : ℕ) : ℚ) ((d : ℕ) : ℚ)))
        :: getIndicesAux ds (ratDiv (((d :: ds).prod : ℕ) : ℚ) ((d : ℕ) : ℚ))
          (jsRem (f : ℚ) (ratDiv (((d :: ds).prod : ℕ) : ℚ) ((d : ℕ) : ℚ)))
      = (unflatten (d :: ds) f).map (fun n : ℕ => (n : ℤ))
    rw [ratDiv_eq_div (((d :: ds).prod : ℕ) : ℚ) ((d : ℕ) : ℚ), hlen',
      ratDiv_eq_div (f : ℚ) ((ds.prod : ℕ) : ℚ), hrem, hfloor]
    rw [ih _ (fun x hx => hpos x (by simp [hx])) (Nat.mod_lt f hP)]
    rfl

theorem getIndices_ok (m : Matrix) (f : ℕ) (hwf : m.Wf) (hf : f < m.data.length) :
    m.getIndices (f : ℚ) = .ok ((unflatten m.dim f).map (fun n : ℕ => (n : ℤ))) := by
  unfold Matrix.getIndices
  rw [if_neg (by
    push_neg
    constructor
    · positivity
    · exact_mod_cast hf)]
  rw [if_neg (by simp [natCast_isInt])]
  rw [show (m.data.length : ℚ) = ((m.dim.prod : ℕ) : ℚ) from by rw [hwf.2.2]]
  rw [getIndicesAux_ok m.dim f (fun d hd => hwf.2.1 d hd) (hwf.2.2 ▸ hf)]

theorem unflatten_lt (dims : List ℕ) (f : ℕ) (hpos : ∀ d ∈ dims, 0 < d)
    (hf : f < dims.prod) :
    List.Forall₂ (fun d n => n < d) dims (unflatten dims f) := by
  induction dims generalizing f with
  | nil => exact List.Forall₂.nil
  | cons d ds ih =>
    have hP : 0 < ds.prod := List.prod_pos (fun x hx => hpos x (by simp [hx]))
    refine List.Forall₂.cons ?_ (ih _ (fun x hx => hpos x (by simp [hx])) (Nat.mod_lt f hP))
    rw [List.prod_cons] at hf
    exact Nat.div_lt_of_lt_mul (by rw [mul_comm]; exact hf)

theorem flatten_unflatten (dims : List ℕ) (f : ℕ) (hpos : ∀ d ∈ dims, 0 < d)
    (hf : f < dims.prod) :
    flatten dims (unflatten dims f) = f := by
  induction dims generalizing f with
  | nil => simp [List.prod_nil] at hf; simp [flatten, flattenAcc, unflatten, hf]
  | cons d ds ih =>
    have hP : 0 < ds.prod := List.prod_pos (fun x hx => hpos x (by simp [hx]))
    have hlen : (unflatten ds (f % ds.prod)).length = ds.length :=
      (unflatten_lt ds (f % ds.prod) (fun x hx => hpos x (by simp [hx]))
        (Nat.mod_lt f hP)).length_eq.symm
    show flatten (d :: ds) ((f / ds.prod) :: unflatten ds (f % ds.prod)) = f
    rw [flatten_cons d ds _ _ hlen]
    rw [ih _ (fun x hx => hpos x (by simp [hx])) (Nat.mod_lt f hP)]
    conv_rhs => rw [← Nat.div_add_mod f ds.prod]
    ring

theorem normIdx_cast (dims ns : List ℕ) (h : ns.length = dims.length) :
    normIdx dims (ns.map (fun n : ℕ => ((n : ℕ) : ℚ))) = ns := by
  induction dims generalizing ns with
  | nil =>
    cases ns with
    | nil => rfl
    | cons n ns' => simp at h
  | cons d ds ih =>
    cases ns with
    | nil => simp at h
    | cons n ns' =>
      simp only [List.length_cons, Nat.succ_inj] at h
      show (((n : ℕ) : ℚ).num + if ((n : ℕ) : ℚ) < 0 then (d : ℤ) else 0).toNat
          :: normIdx ds (ns'.map (fun n : ℕ => ((n : ℕ) : ℚ))) = n :: ns'
      rw [if_neg (not_lt.mpr (by positivity)), ih ns' h]
      simp [Rat.num_natCast]

theorem validIdx_cast (dims ns : List ℕ)
    (h : List.Forall₂ (fun d n => n < d) dims ns) :
    ValidIdx dims (ns.map (fun n : ℕ => ((n : ℕ) : ℚ))) := by
  induction h with
  | nil => exact List.Forall₂.nil
  | @cons d n ds ns' hdn htail ih =>
    refine List.Forall₂.cons ⟨natCast_isInt n, ?_, ?_⟩ ih
    · exact le_trans (neg_nonpos.mpr (by positivity)) (by positivity)
    · show ((n : ℕ) : ℚ) < ((d : ℕ) : ℚ)
      exact_mod_cast hdn

theorem normIdx_nonneg_cast (dims : List ℕ) (idxs : List ℚ) (h : ValidIdx dims idxs)
    (hpos : ∀ i ∈ idxs, 0 ≤ i) :
    (normIdx dims idxs).map (fun n : ℕ => ((n : ℕ) : ℚ)) = idxs := by
  induction h with
  | nil => rfl
  | @cons d i ds is hdi htail ih =>
    obtain ⟨hint, _, _⟩ := hdi
    have hnum : ((i.num : ℚ)) = i := isInt_num_cast hint
    have hi0 : 0 ≤ i := hpos i (by simp)
    have hx : ¬ i < 0 := not_lt.mpr hi0
    have hnum0 : 0 ≤ i.num := by
      have : (0 : ℚ) ≤ ((i.num : ℚ)) := by rw [hnum]; exact hi0
      exact_mod_cast this
    show (((i.num + if i < 0 then (d : ℤ) else 0).toNat : ℕ) : ℚ)
        :: (normIdx ds is).map (fun n : ℕ => ((n : ℕ) : ℚ)) = i :: is
    rw [if_neg hx, ih (fun j hj => hpos j (by simp [hj]))]
    congr 1
    rw [add_zero]
    rw [show ((i.num.toNat : ℕ) : ℚ) = ((i.num.toNat : ℤ) : ℚ) from by norm_cast]
    rw [Int.toNat_of_nonneg hnum0, hnum]

/-- Claim C3 (amended): for every well-formed matrix and valid multi-index
`idx` (components integral, in `[-dim[j], dim[j])`), `getIndex` returns the
mixed-radix offset of the normalized index and `getIndices` of that offset
returns the normalized index — which equals `idx` itself exactly when all
components are non-negative; and for every flat offset `f` in
`[0, data.length)`, `getIndex(getIndices(f)) = f`. -/
theorem C3_index_roundtrip :
    (∀ (m : Matrix) (idxs : List ℚ), m.Wf → ValidIdx m.dim idxs →
      m.getIndex idxs = .ok ((flatten m.dim (normIdx m.dim idxs) : ℕ) : ℤ) ∧
      m.getIndices ((flatten m.dim (normIdx m.dim idxs) : ℕ) : ℚ) =
        .ok ((normIdx m.dim idxs).map (fun n : ℕ => (n : ℤ))) ∧
      ((∀ i ∈ idxs, 0 ≤ i) →
        (normIdx m.dim idxs).map (fun n : ℕ => ((n : ℕ) : ℚ)) = idxs)) ∧
    (∀ (m : Matrix) (f : ℕ), m.Wf → f < m.data.length →
      ∃ ixs, m.getIndices (f : ℚ) = .ok ixs ∧
        m.getIndex (ixs.map (fun z : ℤ => ((z : ℤ) : ℚ))) = .ok ((f : ℕ) : ℤ)) := by
  constructor
  · intro m idxs hwf hv
    have hbound := normIdx_lt m.dim idxs hv
    have hflt : flatten m.dim (normIdx m.dim idxs) < m.data.length := by
      rw [hwf.2.2]
      exact flatten_lt m.dim _ hbound
    refine ⟨getIndex_ok m idxs hv, ?_, normIdx_nonneg_cast m.dim idxs hv⟩
    rw [getIndices_ok m _ hwf hflt]
    rw [unflatten_flatten m.dim _ hbound]
  · intro m f hwf hf
    have hpos : ∀ d ∈ m.dim, 0 < d := fun d hd => hwf.2.1 d hd
    have hfp : f < m.dim.prod := hwf.2.2 ▸ hf
    refine ⟨(unflatten m.dim f).map (fun n : ℕ => (n : ℤ)), getIndices_ok m f hwf hf, ?_⟩
    have hcast : ((unflatten m.dim f).map (fun n : ℕ => (n : ℤ))).map (fun z : ℤ => ((z : ℤ) : ℚ))
        = (unflatten m.dim f).map (fun n : ℕ => ((n : ℕ) : ℚ)) := by
      rw [List.map_map]
      apply List.map_congr_left
      intro n _
      norm_cast
    rw [hcast]
    have hvb := unflatten_lt m.dim f hpos hfp
    rw [getIndex_ok m _ (validIdx_cast m.dim _ hvb)]
    rw [normIdx_cast m.dim _ hvb.length_eq.symm]
    rw [flatten_unflatten m.dim f hpos hfp]

/-- Counterexample to claim C3 as stated: on the constructible 1-D matrix
of shape `[2]`, the valid multi-index `[-1]` maps to flat offset 1, but
`getIndices(1)` returns `[1]`, not `[-1]`. -/
theorem C3_counterexample :
    Matrix.make [2] (some [0, 0]) = .ok ⟨[2], [0, 0]⟩ ∧
    Matrix.getIndex ⟨[2], [0, 0]⟩ [-1] = .ok 1 ∧
    Matrix.getIndices ⟨[2], [0, 0]⟩ 1 = .ok [1] ∧
    ¬ ((1 : ℤ) : ℚ) = -1 := by decide

/-- Witness for C3 at a concrete matrix, multi-index and flat offset. -/
theorem C3_index_roundtrip_witness :
    (Matrix.getIndex ⟨[2, 3], [0, 1, 2, 3, 4, 5]⟩ [1, 2] =
        .ok ((flatten [2, 3] (normIdx [2, 3] [1, 2]) : ℕ) : ℤ) ∧
      Matrix.getIndices ⟨[2, 3], [0, 1, 2, 3, 4, 5]⟩
          ((flatten [2, 3] (normIdx [2, 3] [1, 2]) : ℕ) : ℚ) =
        .ok ((normIdx [2, 3] [1, 2]).map (fun n : ℕ => (n : ℤ))) ∧
      ((∀ i ∈ ([1, 2] : List ℚ), 0 ≤ i) →
        (normIdx [2, 3] [1, 2]).map (fun n : ℕ => ((n : ℕ) : ℚ)) = [1, 2])) ∧
    (∃ ixs, Matrix.getIndices ⟨[2, 3], [0, 1, 2, 3, 4, 5]⟩ ((5 : ℕ) : ℚ) = .ok ixs ∧
      Matrix.getIndex ⟨[2, 3], [0, 1, 2, 3, 4, 5]⟩
        (ixs.map (fun z : ℤ => ((z : ℤ) : ℚ))) = .ok ((5 : ℕ) : ℤ)) :=
  ⟨C3_index_roundtrip.1 ⟨[2, 3], [0, 1, 2, 3, 4, 5]⟩ [1, 2] (by decide)
      (List.Forall₂.cons (by norm_num [Rat.isInt])
        (List.Forall₂.cons (by norm_num [Rat.isInt]) List.Forall₂.nil)),
    C3_index_roundtrip.2 ⟨[2, 3], [0, 1, 2, 3, 4, 5]⟩ 5 (by decide) (by norm_num)⟩

/-! ### Claim C1: transpose -/

theorem transposeData_length (r c : ℕ) (d : List ℚ) :
    (transposeData r c d).length = c * r := by
  simp [transposeData]

theorem transposeData_getD (r c : ℕ) (d : List ℚ) (k : ℕ) :
    (transposeData r c d).getD k 0
      = if k < c * r then d.getD ((k % r) * c + k / r) 0 else 0 :=
  getD_range_map _ _ _

theorem transposeData_involutive (n : ℕ) (d : List ℚ) (h : d.length = n * n) :
    transposeData n n (transposeData n n d) = d := by
  apply List.ext_getElem
  · simp [transposeData, h]
  · intro k h1 h2
    have hkn : k < n * n := by simpa [transposeData] using h1
    have hn : 0 < n := by
      rcases Nat.eq_zero_or_pos n with rfl | h0
      · omega
      · exact h0
    have hmod : k % n < n := Nat.mod_lt _ hn
    have hdivlt : k / n < n := Nat.div_lt_of_lt_mul (by rw [mul_comm] at hkn; exact hkn)
    simp only [transposeData, List.getElem_map, List.getElem_range]
    have hj : (k % n) * n + k / n < n * n := by
      calc (k % n) * n + k / n < (k % n) * n + n := by omega
      _ = (k % n + 1) * n := by ring
      _ ≤ n * n := Nat.mul_le_mul_right _ (by omega)
    rw [show (List.range (n * n)).map
        (fun k => d.getD ((k % n) * n + k / n) 0) = transposeData n n d from rfl]
    rw [transposeData_getD, if_pos hj]
    have e1 : ((k % n) * n + k / n) % n = k / n := by
      rw [add_comm, Nat.add_mul_mod_self_right, Nat.mod_eq_of_lt hdivlt]
    have e2 : ((k % n) * n + k / n) / n = k % n := by
      rw [add_comm, Nat.add_mul_div_right _ _ hn, Nat.div_eq_of_lt hdivlt, zero_add]
    rw [e1, e2]
    have e3 : (k / n) * n + k % n = k := by
      rw [mul_comm]
      exact Nat.div_add_mod k n
    rw [e3]
    rw [List.getD_eq_getElem?_getD, List.getElem?_eq_getElem h2]
    rfl

theorem transposeBang_ok (m : Matrix) (r c : ℕ) (hdim : m.dim = [r, c])
    (hlen : m.data.length = r * c) :
    m.transposeBang = (none, ⟨m.dim, transposeData r c m.data⟩) := by
  unfold Matrix.transposeBang
  rw [if_neg (by rw [hdim]; simp)]
  have h0 : m.dim.getD 0 0 = r := by rw [hdim]; rfl
  have h1 : m.dim.getD 1 0 = c := by rw [hdim]; rfl
  rw [h0, h1]
  show (none, Matrix.mk m.dim ((List.range m.data.length).map
    (fun i => (transposeData r c m.data).getD i 0))) = _
  rw [range_map_getD _ _ (by rw [transposeData_length, hlen, mul_comm])]

theorem copy_ok (m : Matrix) (hwf : m.Wf) : m.copy = .ok m := by
  unfold Matrix.copy
  have hg : GoodDims (m.dim.map (fun d : ℕ => (d : ℚ))) := by
    refine ⟨by simpa [List.map_eq_nil_iff] using hwf.1, ?_⟩
    intro q hq
    simp only [List.mem_map] at hq
    obtain ⟨d, hd, rfl⟩ := hq
    have := hwf.2.1 d hd
    exact ⟨by exact_mod_cast this, natCast_isInt d⟩
  have hnat : natDims (m.dim.map (fun d : ℕ => (d : ℚ))) = m.dim := by
    unfold natDims
    rw [List.map_map]
    have hc : ((fun q : ℚ => q.num.toNat) ∘ (fun d : ℕ => (d : ℚ))) = id := by
      funext d
      simp [natCast_num_toNat]
    rw [hc, List.map_id]
  rw [make_ok _ _ hg (by rw [hnat]; exact hwf.2.2)]
  rw [hnat]

/-- Claim C1 (amended): for every square 2D matrix, transposing twice (in
place, or via `toTransposed` twice) restores the matrix exactly.  (For
non-square 2D matrices this fails: `transpose` rebuilds the buffer with
axes swapped but never swaps the `dim` descriptor, see the
counterexample.) -/
theorem C1_transpose_involution (n : ℕ) (m : Matrix) (hn : 1 ≤ n)
    (hdim : m.dim = [n, n]) (hlen : m.data.length = n * n) :
    m.transposeBang.1 = none ∧
    (m.transposeBang.2).transposeBang.2 = m ∧
    ∃ t, m.toTransposed = .ok t ∧ t.toTransposed = .ok m := by
  obtain ⟨dim, data⟩ := m
  simp only at hdim hlen
  subst hdim
  have hwf : (Matrix.mk [n, n] data).Wf := by
    refine ⟨by simp, ?_, by simpa using hlen⟩
    intro d hd
    rcases List.mem_pair.mp hd with rfl | rfl <;> omega
  have h1 := transposeBang_ok ⟨[n, n], data⟩ n n rfl hlen
  have hlen2 : (transposeData n n data).length = n * n := by
    rw [transposeData_length]
  have h2 := transposeBang_ok ⟨[n, n], transposeData n n data⟩ n n rfl hlen2
  have hinv := transposeData_involutive n data hlen
  refine ⟨by rw [h1], ?_, ?_⟩
  · rw [h1]
    show (Matrix.mk [n, n] (transposeData n n data)).transposeBang.2 = _
    rw [h2]
    show Matrix.mk [n, n] (transposeData n n (transposeData n n data)) = _
    rw [hinv]
  · refine ⟨⟨[n, n], transposeData n n data⟩, ?_, ?_⟩
    · unfold Matrix.toTransposed
      rw [copy_ok _ hwf]
      show (match (Matrix.mk [n, n] data).transposeBang with
        | (some e, _) => Except.error e
        | (none, t) => Except.ok t) = _
      rw [h1]
    · unfold Matrix.toTransposed
      have hwf2 : (Matrix.mk [n, n] (transposeData n n data)).Wf := by
        refine ⟨by simp, ?_, by simpa using hlen2⟩
        intro d hd
        rcases List.mem_pair.mp hd with rfl | rfl <;> omega
      rw [copy_ok _ hwf2]
      show (match (Matrix.mk [n, n] (transposeData n n data)).transposeBang with
        | (some e, _) => Except.error e
        | (none, t) => Except.ok t) = _
      rw [h2]
      show Except.ok (Matrix.mk [n, n] (transposeData n n (transposeData n n data))) = _
      rw [hinv]

/-- Witness for C1 at a concrete 2×2 matrix. -/
theorem C1_transpose_involution_witness :
    (Matrix.mk [2, 2] [1, 2, 3, 4]).transposeBang.1 = none ∧
    ((Matrix.mk [2, 2] [1, 2, 3, 4]).transposeBang.2).transposeBang.2 =
      ⟨[2, 2], [1, 2, 3, 4]⟩ ∧
    ∃ t, (Matrix.mk [2, 2] [1, 2, 3, 4]).toTransposed = .ok t ∧
      t.toTransposed = .ok ⟨[2, 2], [1, 2, 3, 4]⟩ :=
  C1_transpose_involution 2 ⟨[2, 2], [1, 2, 3, 4]⟩ (by norm_num) rfl rfl

/-- Counterexample to claim C1 as stated: for the constructible 2×3 matrix
`[[0,1,2],[3,4,5]]`, transposing twice yields data `[0,4,3,2,1,5]`, not
the original buffer (the `dim` descriptor is never swapped, so the second
transpose scrambles the data). -/
theorem C1_counterexample :
    Matrix.make [2, 3] (some [0, 1, 2, 3, 4, 5]) = .ok ⟨[2, 3], [0, 1, 2, 3, 4, 5]⟩ ∧
    ((Matrix.mk [2, 3] [0, 1, 2, 3, 4, 5]).transposeBang.2).transposeBang.2 =
      ⟨[2, 3], [0, 4, 3, 2, 1, 5]⟩ ∧
    (Matrix.mk [2, 3] [0, 1, 2, 3, 4, 5]).toTransposed = .ok ⟨[2, 3], [0, 3, 1, 4, 2, 5]⟩ ∧
    (Matrix.mk [2, 3] [0, 3, 1, 4, 2, 5]).toTransposed = .ok ⟨[2, 3], [0, 4, 3, 2, 1, 5]⟩ ∧
    (Matrix.mk [2, 3] [0, 4, 3, 2, 1, 5]) ≠ ⟨[2, 3], [0, 1, 2, 3, 4, 5]⟩ := by
  decide


/-! ### Claims C4, C5: determinant -/

theorem loopCount_natCast (n : ℕ) : loopCount ((n : ℕ) : ℚ) = n := by
  unfold loopCount
  rw [Int.ceil_natCast]
  exact Int.toNat_natCast n

theorem identityData_length (s : ℕ) : (identityData s).length = s * s := by
  simp [identityData]

theorem identity_ok (n : ℕ) (hn : 1 ≤ n) :
    Matrix.identity ((n : ℕ) : ℚ) = .ok ⟨[n, n], identityData n⟩ := by
  unfold Matrix.identity
  rw [loopCount_natCast]
  have hg : GoodDims [((n : ℕ) : ℚ), ((n : ℕ) : ℚ)] := by
    refine ⟨by simp, ?_⟩
    intro q hq
    rcases List.mem_pair.mp hq with rfl | rfl <;>
      exact ⟨by exact_mod_cast hn, natCast_isInt n⟩
  have hnat : natDims [((n : ℕ) : ℚ), ((n : ℕ) : ℚ)] = [n, n] := by
    simp only [natDims, List.map_cons, List.map_nil, natCast_num_toNat]
  rw [make_ok _ _ hg (by rw [hnat, identityData_length]; simp)]
  rw [hnat]

theorem identity_at2 (n i j : ℕ) (hi : i < n) (hj : j < n) :
    (Matrix.mk [n, n] (identityData n)).at2 i j = if i = j then 1 else 0 := by
  have hn : 0 < n := by omega
  unfold Matrix.at2
  show (identityData n).getD (i * ((n : ℕ) :: [n]).getD 1 0 + j) 0 = _
  rw [show ((n : ℕ) :: [n]).getD 1 0 = n from rfl]
  unfold identityData
  rw [getD_range_map]
  have hlt : i * n + j < n * n := by
    calc i * n + j < i * n + n := by omega
    _ = (i + 1) * n := by ring
    _ ≤ n * n := Nat.mul_le_mul_right _ (by omega)
  rw [if_pos hlt]
  have hd : (i * n + j) / n = i := by
    rw [add_comm, Nat.add_mul_div_right _ _ hn, Nat.div_eq_of_lt hj, zero_add]
  have hm : (i * n + j) % n = j := by
    rw [add_comm, Nat.add_mul_mod_self_right, Nat.mod_eq_of_lt hj]
  rw [hd, hm]

theorem umod_toNat_lt (a : ℤ) (n : ℕ) (hn : 0 < n) : (umod a n).toNat < n := by
  have := umod_nonneg_lt a n hn
  omega

theorem det_identity (n : ℕ) (hn : 1 ≤ n) :
    (Matrix.mk [n, n] (identityData n)).det = .ok 1 := by
  unfold Matrix.det
  rw [if_neg (by simp)]
  rw [if_neg (by simp)]
  show (if ([n, n] : List ℕ).getD 0 0 = 1 then _ else _) = _
  rw [show ([n, n] : List ℕ).getD 0 0 = n from rfl]
  rcases eq_or_ne n 1 with rfl | hn1
  · rw [if_pos rfl]
    decide
  rw [if_neg hn1]
  rcases eq_or_ne n 2 with rfl | hn2
  · rw [if_pos rfl]
    decide
  rw [if_neg hn2]
  have hn3 : 3 ≤ n := by
    rcases Nat.lt_or_ge n 3 with h | h
    · interval_cases n <;> simp_all
    · exact h
  have hnpos : 0 < n := by omega
  have hnz : (0 : ℤ) < (n : ℤ) := by exact_mod_cast hnpos
  congr 1
  unfold detSum
  have humod : ∀ z : ℤ, 0 ≤ z → z < n → (umod z n).toNat = z.toNat := by
    intro z h0 h1
    rw [umod_eq_emod z n hnz, Int.emod_eq_of_lt h0 h1]
  have hfwd0 : (((List.range n).map (fun i : ℕ =>
      (Matrix.mk [n, n] (identityData n)).at2 i
        ((umod (((0 : ℕ) : ℤ) + ((i : ℕ) : ℤ)) n).toNat))).prod) = 1 := by
    apply List.prod_eq_one
    intro x hx
    simp only [List.mem_map, List.mem_range] at hx
    obtain ⟨i, hi, rfl⟩ := hx
    rw [show ((0 : ℕ) : ℤ) + ((i : ℕ) : ℤ) = ((i : ℕ) : ℤ) by ring]
    rw [humod i (by positivity) (by exact_mod_cast hi)]
    rw [Int.toNat_natCast]
    rw [identity_at2 n i i hi hi]
    simp
  have hbwd0 : (((List.range n).map (fun i : ℕ =>
      (Matrix.mk [n, n] (identityData n)).at2 i
        ((umod (((0 : ℕ) : ℤ) - ((i : ℕ) : ℤ)) n).toNat))).prod) = 0 := by
    apply List.prod_eq_zero
    simp only [List.mem_map, List.mem_range]
    refine ⟨1, by omega, ?_⟩
    have h1 : ((0 : ℕ) : ℤ) - ((1 : ℕ) : ℤ) = -1 := by norm_num
    rw [h1]
    have h2 : umod (-1) n = (n : ℤ) - 1 := by
      rw [umod_eq_emod _ n hnz]
      rw [show (-1 : ℤ) = (n : ℤ) - 1 + (-1) * n by ring]
      rw [Int.add_mul_emod_self]
      exact Int.emod_eq_of_lt (by omega) (by omega)
    rw [h2]
    have h3 : ((n : ℤ) - 1).toNat = n - 1 := by omega
    rw [h3]
    rw [identity_at2 n 1 (n - 1) (by omega) (by omega)]
    rw [if_neg (by omega)]
  have hgen : ∀ col : ℕ, 0 < col → col < n →
      ((((List.range n).map (fun i : ℕ =>
        (Matrix.mk [n, n] (identityData n)).at2 i
          ((umod (((col : ℕ) : ℤ) + ((i : ℕ) : ℤ)) n).toNat))).prod)
      - (((List.range n).map (fun i : ℕ =>
        (Matrix.mk [n, n] (identityData n)).at2 i
          ((umod (((col : ℕ) : ℤ) - ((i : ℕ) : ℤ)) n).toNat))).prod)) = 0 := by
    intro col hc0 hcn
    have hfact : ∀ z : ℤ, z = (col : ℤ) →
        (Matrix.mk [n, n] (identityData n)).at2 0 ((umod z n).toNat) = 0 := by
      intro z hz
      subst hz
      rw [humod col (by positivity) (by exact_mod_cast hcn), Int.toNat_natCast]
      rw [identity_at2 n 0 col (by omega) hcn]
      rw [if_neg (by omega)]
    have hfwd : (((List.range n).map (fun i : ℕ =>
        (Matrix.mk [n, n] (identityData n)).at2 i
          ((umod (((col : ℕ) : ℤ) + ((i : ℕ) : ℤ)) n).toNat))).prod) = 0 := by
      apply List.prod_eq_zero
      simp only [List.mem_map, List.mem_range]
      refine ⟨0, by omega, ?_⟩
      exact hfact _ (by push_cast; ring)
    have hbwd : (((List.range n).map (fun i : ℕ =>
        (Matrix.mk [n, n] (identityData n)).at2 i
          ((umod (((col : ℕ) : ℤ) - ((i : ℕ) : ℤ)) n).toNat))).prod) = 0 := by
      apply List.prod_eq_zero
      simp only [List.mem_map, List.mem_range]
      refine ⟨0, by omega, ?_⟩
      exact hfact _ (by push_cast; ring)
    rw [hfwd, hbwd, sub_zero]
  rw [sum_map_range_head _ n hnpos (fun c h1 h2 => hgen c h1 h2)]
  rw [hfwd0, hbwd0, sub_zero]

/-- Claim C4: for every `n ≥ 1`, `Matrix.identity(n).det()` returns exactly
1, including for `n ≥ 3` where the wrap-around diagonal scheme is used. -/
theorem C4_det_identity (n : ℕ) (hn : 1 ≤ n) :
    Matrix.identity ((n : ℕ) : ℚ) = .ok ⟨[n, n], identityData n⟩ ∧
    (Matrix.mk [n, n] (identityData n)).det = .ok 1 :=
  ⟨identity_ok n hn, det_identity n hn⟩

/-- Witness for C4 at `n = 4` (wrap-around branch). -/
theorem C4_det_identity_witness :
    Matrix.identity ((4 : ℕ) : ℚ) = .ok ⟨[4, 4], identityData 4⟩ ∧
    (Matrix.mk [4, 4] (identityData 4)).det = .ok 1 :=
  C4_det_identity 4 (by norm_num)

/-- Claim C5: the determinant of the 4×4 Vandermonde-style matrix is
exactly 120, and it is produced by the wrap-around diagonal
product-and-subtract scheme (`detSum`). -/
theorem C5_det_scenario :
    Matrix.make [4, 4] (some [1, 1, 1, 1, 1, 2, 4, 8, 1, -2, 4, -8, 1, 3, 9, 27])
      = .ok ⟨[4, 4], [1, 1, 1, 1, 1, 2, 4, 8, 1, -2, 4, -8, 1, 3, 9, 27]⟩ ∧
    (Matrix.mk [4, 4] [1, 1, 1, 1, 1, 2, 4, 8, 1, -2, 4, -8, 1, 3, 9, 27]).det
      = .ok 120 ∧
    detSum ⟨[4, 4], [1, 1, 1, 1, 1, 2, 4, 8, 1, -2, 4, -8, 1, 3, 9, 27]⟩ 4 = 120 := by
  refine ⟨by decide, by decide, by decide⟩


/-! ### Claim C6: in-place operations validate before writing -/

theorem getIndices_nat_ok (m : Matrix) (i : ℕ) (hi : i < m.data.length) :
    ∃ l, m.getIndices ((i : ℕ) : ℚ) = .ok l := by
  unfold Matrix.getIndices
  rw [if_neg (by
    push_neg
    refine ⟨by positivity, by exact_mod_cast hi⟩)]
  rw [if_neg (by simp [natCast_isInt])]
  exact ⟨_, rfl⟩

theorem withMapAux_total (f : ℚ → List ℤ → Except Err ℚ)
    (h : ∀ v i, ∃ w, f v i = .ok w) :
    ∀ (fuel i : ℕ) (m : Matrix), (withMapAux f fuel i m).1 = none := by
  intro fuel
  induction fuel with
  | zero => intro i m; rfl
  | succ fu ih =>
    intro i m
    unfold withMapAux
    by_cases hi : i < m.data.length
    · rw [if_pos hi]
      obtain ⟨l, hl⟩ := getIndices_nat_ok m i hi
      rw [hl]
      dsimp only
      obtain ⟨w, hw⟩ := h (m.data.getD i 0) l
      rw [hw]
      exact ih (i + 1) ⟨m.dim, m.data.set i w⟩
    · rw [if_neg hi]

/-- Claim C6 (amended): every in-place mutating operation validates its own
preconditions before the first write, so a raised error leaves the
receiver exactly as it was — for `set`, `withAdd`, `withSub`, `transpose`
and `withProject`, and vacuously for `fill`, `withMulScalar`, `unit`,
`rotate`, `withAddScalar`, `withSubScalar` and `withMap` with a
non-throwing callback, which never raise.  (Excluded, per the
counterexample: a `withMap` whose user callback itself throws aborts the
loop with earlier elements already overwritten.) -/
theorem C6_inplace_validation :
    (∀ (m : Matrix) (v : ℚ) (idxs : List ℚ) (e : Err),
      (m.setBang v idxs).1 = some e → (m.setBang v idxs).2 = m) ∧
    (∀ (m mat : Matrix) (e : Err),
      (m.withAddBang mat).1 = some e → (m.withAddBang mat).2 = m) ∧
    (∀ (m mat : Matrix) (e : Err),
      (m.withSubBang mat).1 = some e → (m.withSubBang mat).2 = m) ∧
    (∀ (m : Matrix) (e : Err),
      m.transposeBang.1 = some e → m.transposeBang.2 = m) ∧
    (∀ (m mat : Matrix) (e : Err),
      (Vec.withProjectBang m mat).1 = some e → (Vec.withProjectBang m mat).2 = m) ∧
    (∀ (m : Matrix) (v : ℚ), (m.fillBang v).1 = none) ∧
    (∀ (m : Matrix) (a : ℚ), (m.withMulScalarBang a).1 = none) ∧
    (∀ (sqrt : ℚ → ℚ) (m : Matrix), (Vec.unitBang sqrt m).1 = none) ∧
    (∀ (cosD sinD : ℚ → ℚ) (angle : ℚ) (m : Matrix),
      (Vec.rotateBang cosD sinD angle m).1 = none) ∧
    (∀ (m : Matrix) (a : ℚ), (m.withAddScalarBang a).1 = none) ∧
    (∀ (m : Matrix) (a : ℚ), (m.withSubScalarBang a).1 = none) ∧
    (∀ (m : Matrix) (f : ℚ → List ℤ → Except Err ℚ),
      (∀ v i, ∃ w, f v i = .ok w) → (m.withMapBang f).1 = none) := by
  refine ⟨?_, ?_, ?_, ?_, ?_, ?_, ?_, ?_, ?_, ?_, ?_, ?_⟩
  · intro m v idxs e h
    unfold Matrix.setBang at h ⊢
    rcases hg : m.getIndex idxs with e' | f'
    · rfl
    · rw [hg] at h
      simp at h
  · intro m mat e h
    unfold Matrix.withAddBang at h ⊢
    by_cases h1 : m.dim.length ≠ mat.dim.length
    · rw [if_pos h1]
    rw [if_neg h1] at h ⊢
    by_cases h2 : m.dim ≠ mat.dim
    · rw [if_pos h2]
    rw [if_neg h2] at h
    simp at h
  · intro m mat e h
    unfold Matrix.withSubBang at h ⊢
    by_cases h1 : m.dim.length ≠ mat.dim.length
    · rw [if_pos h1]
    rw [if_neg h1] at h ⊢
    by_cases h2 : m.dim ≠ mat.dim
    · rw [if_pos h2]
    rw [if_neg h2] at h
    simp at h
  · intro m e h
    unfold Matrix.transposeBang at h ⊢
    by_cases h1 : m.dim.length ≠ 2
    · rw [if_pos h1]
    rw [if_neg h1] at h
    simp at h
  · intro m mat e h
    unfold Vec.withProjectBang at h ⊢
    rcases hg : Vec.toVec (m.dim.getD 0 0) mat with e' | vec
    · rfl
    · rw [hg] at h
      dsimp only at h ⊢
      rcases hd : Vec.dot m vec with e'' | sc
      · rfl
      · rw [hd] at h
        simp [Matrix.withMulScalarBang] at h
  · intro m v
    rfl
  · intro m a
    rfl
  · intro sqrt m
    unfold Vec.unitBang
    by_cases h1 : 0 < Vec.magSquared m
    · rw [if_pos h1]
      rfl
    · rw [if_neg h1]
  · intro cosD sinD angle m
    unfold Vec.rotateBang
    by_cases h1 : m.dim.getD 0 0 ≠ 2
    · rw [if_pos h1]
    · rw [if_neg h1]
  · intro m a
    exact withMapAux_total _ (fun v i => ⟨v + a, rfl⟩) _ _ _
  · intro m a
    exact withMapAux_total _ (fun v i => ⟨v - a, rfl⟩) _ _ _
  · intro m f h
    exact withMapAux_total f h _ _ _

/-- Witness for C6 at concrete failing and succeeding calls. -/
theorem C6_inplace_validation_witness :
    ((Matrix.mk [2, 2] [1, 2, 3, 4]).setBang 99 [5, 0]).2 = ⟨[2, 2], [1, 2, 3, 4]⟩ ∧
    ((Matrix.mk [2, 1] [3, 4]).withAddBang ⟨[1, 2], [10, 20]⟩).2 = ⟨[2, 1], [3, 4]⟩ ∧
    ((Matrix.mk [2, 1] [3, 4]).withMapBang (fun v _ => .ok (v + 1))).1 = none :=
  ⟨C6_inplace_validation.1 ⟨[2, 2], [1, 2, 3, 4]⟩ 99 [5, 0] .rangeError (by decide),
    C6_inplace_validation.2.1 ⟨[2, 1], [3, 4]⟩ ⟨[1, 2], [10, 20]⟩ .typeError (by decide),
    C6_inplace_validation.2.2.2.2.2.2.2.2.2.2.2 ⟨[2, 1], [3, 4]⟩
      (fun v _ => .ok (v + 1)) (fun v i => ⟨v + 1, rfl⟩)⟩

/-- Counterexample to claim C6 as stated: a `withMap` call whose callback
throws on the second element raises an error but leaves the first element
already overwritten (`[1, 2]` became `[11, 2]`). -/
theorem C6_counterexample :
    Matrix.make [2] (some [1, 2]) = .ok ⟨[2], [1, 2]⟩ ∧
    ((Matrix.mk [2] [1, 2]).withMapBang
        (fun v _ => if v == 2 then .error .valueError else .ok (v + 10)))
      = (some .valueError, ⟨[2], [11, 2]⟩) ∧
    (Matrix.mk [2] [11, 2]) ≠ ⟨[2], [1, 2]⟩ := by
  refine ⟨by decide, by decide, by decide⟩


/-! ### Claim C10: single-index slice arguments reject negatives -/

/-- Claim C10: a single-integer slice range argument `r` is rejected with a
range error whenever `r < 0` — the index-from-the-end convention never
applies to the single-number form (whereas a `[start, stop]` pair with a
negative in-range start is accepted and normalized, third conjunct). -/
theorem C10_single_range_negative :
    (∀ (axis : ℕ) (r : ℚ), r < 0 → resolveArg axis (.single r) = .error .rangeError) ∧
    (∀ (m : Matrix) (r : ℚ) (rest : List SliceArg), r < 0 →
      rest.length < m.dim.length →
      m.slice (.single r :: rest) = .error .rangeError) ∧
    resolveArg 4 (.pair (-3) 4) = .ok (3, .run 1 4 1) := by
  have hsingle : ∀ (axis : ℕ) (r : ℚ), r < 0 →
      resolveArg axis (.single r) = .error .rangeError := by
    intro axis r hr
    unfold resolveArg
    dsimp only
    rw [if_pos (Or.inl hr)]
  refine ⟨hsingle, ?_, by decide⟩
  intro m r rest hr hlen
  unfold Matrix.slice
  rw [if_neg (by simp; omega)]
  rcases hd : m.dim with _ | ⟨d0, ds⟩
  · rw [hd] at hlen
    simp at hlen
  show (match resolveAll (d0 :: ds)
      ((SliceArg.single r :: rest) ++ ((d0 :: ds).drop (SliceArg.single r :: rest).length).map
        (fun d : ℕ => SliceArg.pair 0 (d : ℚ))) with
    | .error e => Except.error e
    | .ok rs => _) = Except.error Err.rangeError
  rw [show (SliceArg.single r :: rest) ++ ((d0 :: ds).drop (SliceArg.single r :: rest).length).map
        (fun d : ℕ => SliceArg.pair 0 (d : ℚ))
      = SliceArg.single r :: (rest ++ ((d0 :: ds).drop (SliceArg.single r :: rest).length).map
        (fun d : ℕ => SliceArg.pair 0 (d : ℚ))) from rfl]
  unfold resolveAll
  rw [hsingle d0 r hr]

/-- Witness for C10 at a concrete negative single index. -/
theorem C10_single_range_negative_witness :
    resolveArg 5 (.single (-2)) = .error .rangeError ∧
    (Matrix.mk [4] [0, 1, 2, 3]).slice [.single (-1)] = .error .rangeError :=
  ⟨C10_single_range_negative.1 5 (-2) (by norm_num),
    C10_single_range_negative.2.1 ⟨[4], [0, 1, 2, 3]⟩ (-1) [] (by norm_num) (by norm_num)⟩


/-! ### Claim C2: slice on validated forward ranges -/

theorem floor_ratDiv_dvd (x st : ℤ) (hst : 0 < st) (hdvd : st ∣ x) :
    Int.floor (ratDiv ((x : ℤ) : ℚ) ((st : ℤ) : ℚ)) = x / st := by
  obtain ⟨k, rfl⟩ := hdvd
  rw [ratDiv_eq_div]
  rw [show ((st * k : ℤ) : ℚ) = ((st : ℤ) : ℚ) * ((k : ℤ) : ℚ) by push_cast; ring]
  rw [mul_comm, mul_div_assoc, div_self (by exact_mod_cast hst.ne'), mul_one]
  rw [Int.floor_intCast]
  rw [Int.mul_ediv_cancel_left k hst.ne']

theorem resolveRange_forward (axis : ℕ) (a b : ℚ) (st : Option ℚ)
    (ha1 : a.isInt = true) (ha2 : -((axis : ℕ) : ℚ) ≤ a) (ha3 : a < ((axis : ℕ) : ℚ))
    (hb1 : b.isInt = true) (hb2 : -((axis : ℕ) : ℚ) ≤ b) (hb3 : b ≤ ((axis : ℕ) : ℚ))
    (hlt : normLo axis a < normLo axis b)
    (step : ℤ) (hstep : 0 < step)
    (hst : (st.getD 1).isInt = true ∧ (st.getD 1).num = step)
    (hdvd : step ∣ (normLo axis b - normLo axis a)) :
    resolveRange axis a b st
      = .ok ((normLo axis b - normLo axis a) / step,
          .run (normLo axis a) (normLo axis b) step) := by
  unfold resolveRange
  rw [if_neg (by simp [ha1]), if_neg (not_lt.mpr ha2), if_neg (not_le.mpr ha3)]
  rw [if_neg (by simp [hb1]), if_neg (not_lt.mpr hb2), if_neg (not_lt.mpr hb3)]
  dsimp only
  rw [show a.num + (if a < 0 then ((axis : ℕ) : ℤ) else 0) = normLo axis a from rfl,
    show b.num + (if b < 0 then ((axis : ℕ) : ℤ) else 0) = normLo axis b from rfl]
  rw [if_pos hlt]
  rw [if_neg (by simp [hst.1])]
  rw [if_neg (show ¬ st.getD 1 = 0 from by
    intro hc
    rw [hc] at hst
    have : ((0 : ℚ)).num = 0 := rfl
    omega)]
  rw [hst.2]
  rw [if_neg (by push_neg; intro _; omega)]
  rw [if_neg (by push_neg; intro hc; omega)]
  have habs : |((normLo axis a : ℤ) : ℚ) - ((normLo axis b : ℤ) : ℚ)|
      = ((normLo axis b - normLo axis a : ℤ) : ℚ) := by
    rw [abs_sub_comm, abs_of_nonneg (by
      rw [sub_nonneg]
      exact_mod_cast hlt.le)]
    push_cast
    ring
  rw [habs, floor_ratDiv_dvd _ _ hstep hdvd]

theorem resolveArg_forward (axis : ℕ) (arg : SliceArg) (h : ForwardArg axis arg) :
    resolveArg axis arg = .ok (expectDim axis arg, expectRes axis arg) := by
  cases arg with
  | single r =>
    obtain ⟨h1, h2, h3⟩ := h
    unfold resolveArg
    dsimp only
    rw [if_neg (by push_neg; exact ⟨h2, h3⟩), if_neg (by simp [h1])]
    rfl
  | pair a b =>
    obtain ⟨ha1, ha2, ha3, hb1, hb2, hb3, hlt⟩ := h
    show resolveRange axis a b none = _
    rw [resolveRange_forward axis a b none ha1 ha2 ha3 hb1 hb2 hb3 hlt 1 one_pos
      ⟨rfl, rfl⟩ (one_dvd _)]
    rw [Int.ediv_one]
    rfl
  | triple a b c =>
    obtain ⟨ha1, ha2, ha3, hb1, hb2, hb3, hlt, hc1, hc2, hc3⟩ := h
    show resolveRange axis a b (some c) = _
    rw [resolveRange_forward axis a b (some c) ha1 ha2 ha3 hb1 hb2 hb3 hlt c.num hc2
      ⟨hc1, rfl⟩ hc3]
    rfl

theorem upIndicesF_length (step : ℤ) (hst : 0 < step) :
    ∀ (fuel : ℕ) (start stop : ℤ), (stop - start).toNat ≤ fuel →
      step ∣ (stop - start) →
      (upIndicesF fuel start stop step).length = ((stop - start) / step).toNat := by
  intro fuel
  induction fuel with
  | zero =>
    intro start stop hf hdvd
    obtain ⟨k, hk⟩ := hdvd
    have hle : stop - start ≤ 0 := by omega
    have hk0 : k ≤ 0 := by
      by_contra hc
      push_neg at hc
      have := mul_pos hst hc
      omega
    rw [hk, Int.mul_ediv_cancel_left _ hst.ne']
    show (0 : ℕ) = k.toNat
    omega
  | succ fu ih =>
    intro start stop hf hdvd
    obtain ⟨k, hk⟩ := hdvd
    unfold upIndicesF
    by_cases hlt : start < stop
    · rw [if_pos ⟨hlt, hst⟩]
      simp only [List.length_cons]
      have hk1 : 1 ≤ k := by
        by_contra hc
        push_neg at hc
        have : step * k ≤ 0 := mul_nonpos_of_nonneg_of_nonpos hst.le (by omega)
        omega
      have hd2 : step ∣ (stop - (start + step)) :=
        ⟨k - 1, by rw [show stop - (start + step) = (stop - start) - step by ring, hk]; ring⟩
      have hf2 : (stop - (start + step)).toNat ≤ fu := by omega
      rw [ih _ _ hf2 hd2]
      have e1 : stop - (start + step) = step * (k - 1) := by
        rw [show stop - (start + step) = (stop - start) - step by ring, hk]
        ring
      rw [e1, hk, Int.mul_ediv_cancel_left _ hst.ne', Int.mul_ediv_cancel_left _ hst.ne']
      omega
    · rw [if_neg (by tauto)]
      have hk0 : k ≤ 0 := by
        by_contra hc
        push_neg at hc
        have := mul_pos hst hc
        omega
      rw [hk, Int.mul_ediv_cancel_left _ hst.ne']
      show (0 : ℕ) = k.toNat
      omega

theorem upIndices_length (start stop step : ℤ) (hst : 0 < step)
    (hdvd : step ∣ (stop - start)) :
    (upIndices start stop step).length = ((stop - start) / step).toNat :=
  upIndicesF_length step hst _ start stop le_rfl hdvd

theorem axisIndices_length (axis : ℕ) (arg : SliceArg) (h : ForwardArg axis arg) :
    (axisIndices (expectRes axis arg)).length = (expectDim axis arg).toNat := by
  cases arg with
  | single r => rfl
  | pair a b =>
    obtain ⟨_, _, _, _, _, _, hlt⟩ := h
    show (axisIndices (.run (normLo axis a) (normLo axis b) 1)).length = _
    unfold axisIndices
    dsimp only
    rw [if_pos hlt, List.length_map]
    rw [upIndices_length _ _ _ one_pos (one_dvd _), Int.ediv_one]
    rfl
  | triple a b c =>
    obtain ⟨_, _, _, _, _, _, hlt, _, hc2, hc3⟩ := h
    show (axisIndices (.run (normLo axis a) (normLo axis b) c.num)).length = _
    unfold axisIndices
    dsimp only
    rw [if_pos hlt, List.length_map]
    exact upIndices_length _ _ _ hc2 hc3

theorem expectDim_pos (axis : ℕ) (arg : SliceArg) (h : ForwardArg axis arg) :
    1 ≤ expectDim axis arg := by
  cases arg with
  | single r => exact le_refl 1
  | pair a b =>
    obtain ⟨_, _, _, _, _, _, hlt⟩ := h
    show 1 ≤ normLo axis b - normLo axis a
    omega
  | triple a b c =>
    obtain ⟨_, _, _, _, _, _, hlt, _, hc2, hc3⟩ := h
    show 1 ≤ (normLo axis b - normLo axis a) / c.num
    obtain ⟨k, hk⟩ := hc3
    have hk1 : 1 ≤ k := by
      by_contra hc
      push_neg at hc
      have : c.num * k ≤ 0 := mul_nonpos_of_nonneg_of_nonpos hc2.le (by omega)
      omega
    rw [hk, Int.mul_ediv_cancel_left _ hc2.ne']
    exact hk1

theorem expectDim_eq_spec (axis : ℕ) (arg : SliceArg) (h : ForwardArg axis arg) :
    expectDim axis arg = specAxisLen axis arg := by
  cases arg with
  | single r => rfl
  | pair a b =>
    obtain ⟨_, _, _, _, _, _, hlt⟩ := h
    show normLo axis b - normLo axis a = Int.floor _
    rw [abs_one, div_one]
    rw [abs_sub_comm, abs_of_nonneg (by
      rw [sub_nonneg]
      exact_mod_cast hlt.le)]
    rw [show ((normLo axis b : ℤ) : ℚ) - ((normLo axis a : ℤ) : ℚ)
      = ((normLo axis b - normLo axis a : ℤ) : ℚ) by push_cast; ring]
    rw [Int.floor_intCast]
  | triple a b c =>
    obtain ⟨_, _, _, _, _, _, hlt, _, hc2, hc3⟩ := h
    show (normLo axis b - normLo axis a) / c.num = Int.floor _
    rw [abs_of_nonneg (show (0 : ℚ) ≤ ((c.num : ℤ) : ℚ) by exact_mod_cast hc2.le)]
    rw [abs_sub_comm, abs_of_nonneg (by
      rw [sub_nonneg]
      exact_mod_cast hlt.le)]
    rw [show ((normLo axis b : ℤ) : ℚ) - ((normLo axis a : ℤ) : ℚ)
      = ((normLo axis b - normLo axis a : ℤ) : ℚ) by push_cast; ring]
    obtain ⟨k, hk⟩ := hc3
    have hfl : Int.floor ((((c.num * k : ℤ) : ℚ)) / ((c.num : ℤ) : ℚ)) = k := by
      rw [show ((c.num * k : ℤ) : ℚ) = ((c.num : ℤ) : ℚ) * ((k : ℤ) : ℚ) by push_cast; ring]
      rw [mul_comm ((c.num : ℤ) : ℚ) ((k : ℤ) : ℚ), mul_div_assoc,
        div_self (show ((c.num : ℤ) : ℚ) ≠ 0 by exact_mod_cast hc2.ne'), mul_one,
        Int.floor_intCast]
    rw [hk, hfl, Int.mul_ediv_cancel_left k hc2.ne']

theorem resolveAll_forward (dims : List ℕ) (args : List SliceArg)
    (h : List.Forall₂ ForwardArg dims args) :
    resolveAll dims args
      = .ok (List.zipWith (fun axis arg => (expectDim axis arg, expectRes axis arg))
          dims args) := by
  induction h with
  | nil => rfl
  | @cons d arg ds args' hh htail ih =>
    unfold resolveAll
    rw [resolveArg_forward d arg hh]
    dsimp only
    rw [ih]
    rfl

theorem cartesian_length (ls : List (List ℚ)) :
    (cartesian ls).length = (ls.map List.length).prod := by
  induction ls with
  | nil => rfl
  | cons a rest ih =>
    show (a.flatMap (fun i => (cartesian rest).map (fun t => i :: t))).length = _
    rw [List.length_flatMap]
    have hconst : a.map (List.length ∘ fun i => (cartesian rest).map (fun t => i :: t))
        = a.map (fun _ => (cartesian rest).length) := by
      apply List.map_congr_left
      intro x _
      simp
    rw [hconst, List.map_const', List.sum_replicate, smul_eq_mul, ih]
    simp

theorem forall₂_append {α β : Type} {R : α → β → Prop} {l1 l3 : List α} {l2 l4 : List β}
    (h1 : List.Forall₂ R l1 l2) (h2 : List.Forall₂ R l3 l4) :
    List.Forall₂ R (l1 ++ l3) (l2 ++ l4) := by
  induction h1 with
  | nil => exact h2
  | cons hh _ ih => exact List.Forall₂.cons hh ih

theorem forall₂_pad (ds : List ℕ) (h : ∀ d ∈ ds, 1 ≤ d) :
    List.Forall₂ ForwardArg ds (ds.map (fun d : ℕ => SliceArg.pair 0 (d : ℚ))) := by
  induction ds with
  | nil => exact List.Forall₂.nil
  | cons d rest ih =>
    have hd : 1 ≤ d := h d (by simp)
    refine List.Forall₂.cons ?_ (ih (fun x hx => h x (by simp [hx])))
    show ForwardArg d (.pair 0 (d : ℚ))
    refine ⟨rfl, neg_nonpos.mpr (by positivity), by exact_mod_cast hd,
      natCast_isInt d, le_trans (neg_nonpos.mpr (by positivity)) (by positivity),
      le_refl _, ?_⟩
    show normLo d 0 < normLo d ((d : ℕ) : ℚ)
    unfold normLo
    rw [if_neg (by norm_num), if_neg (not_lt.mpr (by positivity))]
    rw [show ((0 : ℚ)).num = 0 from rfl, Rat.num_natCast]
    omega

theorem lengths_eq (dims : List ℕ) (args : List SliceArg)
    (h : List.Forall₂ ForwardArg dims args) :
    (List.zipWith (fun axis arg => (expectDim axis arg, expectRes axis arg)) dims args).map
        (fun r => (axisIndices r.2).length)
      = List.zipWith (fun axis arg => (expectDim axis arg).toNat) dims args := by
  induction h with
  | nil => rfl
  | @cons d arg ds args' hh htail ih =>
    show (axisIndices (expectRes d arg)).length :: _ = (expectDim d arg).toNat :: _
    rw [axisIndices_length d arg hh, ih]

theorem zipWith_expect_pos (dims : List ℕ) (args : List SliceArg)
    (h : List.Forall₂ ForwardArg dims args) :
    ∀ r ∈ List.zipWith (fun axis arg => (expectDim axis arg, expectRes axis arg)) dims args,
      1 ≤ r.1 := by
  induction h with
  | nil => simp
  | @cons d arg ds args' hh htail ih =>
    intro r hr
    rcases List.mem_cons.mp hr with rfl | hr'
    · exact expectDim_pos d arg hh
    · exact ih r hr'

/-- Claim C2 (amended): a `slice` call whose range arguments are valid and,
after normalization, forward (`start < stop`) with a positive step dividing
`stop - start` (the defaulted `+1` step included) succeeds, and each axis
of the result has length `(stop - start) / step`, which on these arguments
equals the specified `floor(|start - stop| / |step|)`.  (As stated the
claim is false: backward ranges and non-dividing steps always raise, see
the counterexample.) -/
theorem C2_slice_forward (m : Matrix) (ranges : List SliceArg)
    (hwf : m.Wf) (hr : ranges.length ≤ m.dim.length)
    (hargs : List.Forall₂ ForwardArg (m.dim.take ranges.length) ranges) :
    ∃ res, m.slice ranges = .ok res ∧
      res.dim = List.zipWith (fun axis arg => (expectDim axis arg).toNat) m.dim
        (ranges ++ (m.dim.drop ranges.length).map (fun d : ℕ => SliceArg.pair 0 (d : ℚ))) ∧
      res.data.length = res.dim.prod ∧
      (∀ (axis : ℕ) (arg : SliceArg), ForwardArg axis arg →
        expectDim axis arg = specAxisLen axis arg) := by
  have hpadtail := forall₂_pad (m.dim.drop ranges.length)
    (fun d hd => hwf.2.1 d (List.mem_of_mem_drop hd))
  have hpad : List.Forall₂ ForwardArg m.dim
      (ranges ++ (m.dim.drop ranges.length).map (fun d : ℕ => SliceArg.pair 0 (d : ℚ))) := by
    conv_lhs => rw [← List.take_append_drop ranges.length m.dim]
    exact forall₂_append hargs hpadtail
  unfold Matrix.slice
  rw [if_neg (not_lt.mpr hr)]
  dsimp only
  rw [resolveAll_forward m.dim _ hpad]
  dsimp only
  set pad := ranges ++ (m.dim.drop ranges.length).map (fun d : ℕ => SliceArg.pair 0 (d : ℚ))
    with hpadded
  set ZW := List.zipWith (fun axis arg => (expectDim axis arg, expectRes axis arg)) m.dim pad
    with hZW
  have hlen_zw : ZW.map (fun r => (axisIndices r.2).length)
      = List.zipWith (fun axis arg => (expectDim axis arg).toNat) m.dim pad :=
    lengths_eq m.dim pad hpad
  have hnat : natDims (ZW.map (fun r : ℤ × Resolved => ((r.1 : ℤ) : ℚ)))
      = List.zipWith (fun axis arg => (expectDim axis arg).toNat) m.dim pad := by
    unfold natDims
    rw [List.map_map, hZW, List.map_zipWith]
    congr 1
  have hgood : GoodDims (ZW.map (fun r : ℤ × Resolved => ((r.1 : ℤ) : ℚ))) := by
    constructor
    · have hlen : ZW.length = m.dim.length := by
        rw [hZW, List.length_zipWith, hpad.length_eq]
        exact Nat.min_self _
      intro hc
      rw [List.map_eq_nil_iff] at hc
      rw [hc] at hlen
      exact hwf.1 (List.length_eq_zero.mp hlen.symm)
    · intro q hq
      simp only [List.mem_map] at hq
      obtain ⟨r, hr', rfl⟩ := hq
      have hpos : 1 ≤ r.1 := zipWith_expect_pos m.dim pad hpad r hr'
      exact ⟨by exact_mod_cast hpos, intCast_isInt r.1⟩
  have hdata_len : ((cartesian (ZW.map (fun r => axisIndices r.2))).map
        (fun idxs => m.getTot idxs)).length
      = (natDims (ZW.map (fun r : ℤ × Resolved => ((r.1 : ℤ) : ℚ)))).prod := by
    rw [List.length_map, cartesian_length, List.map_map, hnat]
    congr 1
  rw [make_ok _ _ hgood hdata_len]
  exact ⟨_, rfl, hnat, hdata_len, fun axis arg h => expectDim_eq_spec axis arg h⟩


/-- Counterexample to claim C2 as stated: two slice calls whose arguments
meet all stated validity conditions (integral in-range bounds, step sign
consistent with the bound ordering, default step `-1` for a backward
range) nonetheless raise: the backward range `[3, 0]` on a 1-D matrix of
shape `[4]` (the code computes axis length `floor(3 / -1) = -3` and the
constructor rejects it), and the non-dividing step `[0, 5, 2]` on shape
`[6]` (the code computes `floor(5 / 2) = 2` but enumerates 3 elements, and
the constructor rejects the length mismatch). -/
theorem C2_counterexample :
    Matrix.make [4] (some [0, 1, 2, 3]) = .ok ⟨[4], [0, 1, 2, 3]⟩ ∧
    (Matrix.mk [4] [0, 1, 2, 3]).slice [.pair 3 0] = .error .valueError ∧
    Matrix.make [6] (some [0, 1, 2, 3, 4, 5]) = .ok ⟨[6], [0, 1, 2, 3, 4, 5]⟩ ∧
    (Matrix.mk [6] [0, 1, 2, 3, 4, 5]).slice [.triple 0 5 2] = .error .valueError := by
  refine ⟨by decide, by decide, by decide, by decide⟩

/-- Witness for C2 at a concrete forward stepped slice. -/
theorem C2_slice_forward_witness :
    ∃ res, (Matrix.mk [6] [0, 1, 2, 3, 4, 5]).slice [.triple 0 6 2] = .ok res ∧
      res.dim = List.zipWith (fun axis arg => (expectDim axis arg).toNat)
        (Matrix.mk [6] [0, 1, 2, 3, 4, 5]).dim
        ([SliceArg.triple 0 6 2] ++
          ((Matrix.mk [6] [0, 1, 2, 3, 4, 5]).dim.drop
              ([SliceArg.triple 0 6 2] : List SliceArg).length).map
            (fun d : ℕ => SliceArg.pair 0 (d : ℚ))) ∧
      res.data.length = res.dim.prod ∧
      (∀ (axis : ℕ) (arg : SliceArg), ForwardArg axis arg →
        expectDim axis arg = specAxisLen axis arg) :=
  C2_slice_forward ⟨[6], [0, 1, 2, 3, 4, 5]⟩ [.triple 0 6 2] (by decide) (by norm_num)
    (List.Forall₂.cons (by decide) List.Forall₂.nil)


end

end Jexel
